import Mathlib

/-!
Verification of the hex-fold growth/travel simulation core.

Shallow embedding of the simulation core of the repository:

* `app/grid/layout.py` — only the interface the core needs: a layout supplies
  a finite vertex-key set, a static undirected edge set and a pixel position
  per vertex (`Layout` below; pixels are modelled as exact rationals).
* `app/graph/honey_graph.py` — `HoneyGraph` with per-vertex and per-edge
  mutable state, frontier counting, `ensure_edge_exists`,
  `choose_random_start_edge`.
* `app/graph/growth_stepper.py` — `Agent`, the growth move, BFS travel
  planning and the top-level `step`.
* `app/simulation/agent_controller.py` — the per-agent animator phase machine
  and the controller loop.

Python `int` is modelled as `Int`, Python `float` as `ℚ` (all float values in
the embedded code arise from exact arithmetic on configuration inputs; no
claim here depends on rounding).  The mutable object graph is modelled by
explicit state passing: every mutating method becomes a function returning
the updated state.  `random.Random` is modelled as a deterministic stream of
pre-drawn values consumed in invocation order (`RNG`), which is exactly the
reproducibility interface the code relies on.  The unbounded retry loop in
`choose_random_start_edge` and the BFS worklist are given explicit fuel; a
`none` result of a fuelled function models an execution the source would not
complete (the BFS fuel is proved sufficient below, so there it is a device
only).
-/

/-- Vertex keys are integer lattice pairs (`type VertexKey = tuple[int, int]`). -/
abbrev VertexKey := Int × Int

/-- Edge keys are ordered pairs of vertex keys (`type EdgeKey = tuple[VertexKey, VertexKey]`). -/
abbrev EdgeKey := VertexKey × VertexKey

/-- Python tuple comparison `key_a <= key_b` on 2-tuples: lexicographic. -/
def vkLe (a b : VertexKey) : Bool :=
  decide (a.1 < b.1 ∨ (a.1 = b.1 ∧ a.2 ≤ b.2))

/-- `HoneyGraph._edge_key`: canonical undirected edge key (sorted endpoints). -/
def edge_key (key_a key_b : VertexKey) : EdgeKey :=
  if vkLe key_a key_b then (key_a, key_b) else (key_b, key_a)

/-- `VertexState` (honey_graph.py): mutable per-vertex simulation state. -/
structure VertexState where
  visit_count : Int := 0
  version : Int := 0
  open_incident_edges : Int := 0
deriving DecidableEq, Repr

/-- `EdgeState` (honey_graph.py): mutable per-edge simulation state.
The Python field `exists` is a Lean keyword, rendered `exists_`. -/
structure EdgeState where
  exists_ : Bool := false
  traffic : Int := 0
deriving DecidableEq, Repr

/-- The layout interface consumed by the core (`HexGridLayout`): vertex keys,
static undirected edges (`start_key`/`end_key` pairs) and the
`vertices_by_key[k].px` pixel lookup. -/
structure Layout where
  vertices : List VertexKey
  edges : List (VertexKey × VertexKey)
  px : VertexKey → ℚ × ℚ

/-- `HoneyGraph`: static topology plus mutable simulation state.  Python's
dictionaries of mutable state objects are modelled as total functions
(lookups the source performs are always at keys present in the dicts; the
claims below only ever evaluate the functions at such keys). -/
structure HoneyGraph where
  vertices : List VertexKey
  adjacency : VertexKey → List VertexKey
  edge_state : EdgeKey → EdgeState
  vertex_state : VertexKey → VertexState
  frontier_count : Int
  active_edges : List EdgeKey

/-- One step of adjacency construction in `HoneyGraph.__init__`:
`adjacency[a].append(b); adjacency[b].append(a)`. -/
def addEdgeAdj (adj : VertexKey → List VertexKey) (e : VertexKey × VertexKey) :
    VertexKey → List VertexKey := fun v =>
  let l := adj v
  let l := if v = e.1 then l ++ [e.2] else l
  if v = e.2 then l ++ [e.1] else l

/-- Adjacency lists built by folding `addEdgeAdj` over the layout edges, as the
`for edge in layout.edges` loop does (empty list for keys no edge touches). -/
def initAdj (es : List (VertexKey × VertexKey)) : VertexKey → List VertexKey :=
  es.foldl addEdgeAdj (fun _ => [])

/-- `HoneyGraph.__init__`: adjacency from the static edges, every edge state
`exists=False, traffic=0`, every `open_incident_edges` initialised to the
vertex degree, `frontier_count` the number of vertices of nonzero degree. -/
def HoneyGraph.init (layout : Layout) : HoneyGraph :=
  let adj := initAdj layout.edges
  let openInc : VertexKey → Int := fun v => ((adj v).length : Int)
  { vertices := layout.vertices
    adjacency := adj
    edge_state := fun _ => {}
    vertex_state := fun v => { open_incident_edges := openInc v }
    frontier_count := ((layout.vertices.filter (fun v => decide (0 < openInc v))).length : Int)
    active_edges := [] }

/-- `HoneyGraph.neighbors`. -/
def HoneyGraph.neighbors (g : HoneyGraph) (vertex_key : VertexKey) : List VertexKey :=
  g.adjacency vertex_key

/-- Convenience accessor for the `exists` flag of the canonical edge state. -/
def HoneyGraph.edgeExists (g : HoneyGraph) (key_a key_b : VertexKey) : Bool :=
  (g.edge_state (edge_key key_a key_b)).exists_

/-- Convenience accessor for the traffic of the canonical edge state. -/
def HoneyGraph.traffic (g : HoneyGraph) (key_a key_b : VertexKey) : Int :=
  (g.edge_state (edge_key key_a key_b)).traffic

/-- Convenience accessor for `open_incident_edges`. -/
def HoneyGraph.open_incident (g : HoneyGraph) (v : VertexKey) : Int :=
  (g.vertex_state v).open_incident_edges

/-- Convenience accessor for `version`. -/
def HoneyGraph.version (g : HoneyGraph) (v : VertexKey) : Int :=
  (g.vertex_state v).version

/-- Convenience accessor for `visit_count`. -/
def HoneyGraph.visit_count (g : HoneyGraph) (v : VertexKey) : Int :=
  (g.vertex_state v).visit_count

/-- `HoneyGraph.iter_existing_neighbors`: neighbors through `exists=True`
edges only — the travel subgraph. -/
def HoneyGraph.iter_existing_neighbors (g : HoneyGraph) (vertex_key : VertexKey) :
    List VertexKey :=
  (g.adjacency vertex_key).filter (fun nb => g.edgeExists vertex_key nb)

/-- `HoneyGraph.is_frontier_vertex`: `open_incident_edges > 0`. -/
def HoneyGraph.is_frontier_vertex (g : HoneyGraph) (vertex_key : VertexKey) : Bool :=
  decide (0 < g.open_incident vertex_key)

/-- `HoneyGraph.frontier_is_empty`: `frontier_count == 0`. -/
def HoneyGraph.frontier_is_empty (g : HoneyGraph) : Bool :=
  decide (g.frontier_count = 0)

/-- `HoneyGraph._decrement_open_incident_edges`: decrease the missing-edge
counter (no-op at or below zero); on hitting exactly zero bump the version and
decrement the process-wide frontier count. -/
def HoneyGraph.decrement_open_incident_edges (g : HoneyGraph) (vertex_key : VertexKey) :
    HoneyGraph :=
  let s := g.vertex_state vertex_key
  if s.open_incident_edges ≤ 0 then g
  else
    let s1 : VertexState := { s with open_incident_edges := s.open_incident_edges - 1 }
    if s1.open_incident_edges = 0 then
      { g with
        vertex_state := fun w => if w = vertex_key then { s1 with version := s1.version + 1 }
          else g.vertex_state w
        frontier_count := g.frontier_count - 1 }
    else
      { g with
        vertex_state := fun w => if w = vertex_key then s1 else g.vertex_state w }

/-- `HoneyGraph.ensure_edge_exists`: no-op when the edge already exists,
otherwise mark it existing, track it active, and decrement both endpoints'
open-incident counters. -/
def HoneyGraph.ensure_edge_exists (g : HoneyGraph) (key_a key_b : VertexKey) : HoneyGraph :=
  let key := edge_key key_a key_b
  let st := g.edge_state key
  if st.exists_ then g
  else
    let g1 : HoneyGraph :=
      { g with
        edge_state := fun k => if k = key then { st with exists_ := true } else g.edge_state k
        active_edges := key :: g.active_edges }
    (g1.decrement_open_incident_edges key_a).decrement_open_incident_edges key_b

/-- Deterministic model of `random.Random`: a pre-drawn stream of floats (for
`random()`, modelled exactly as rationals) and a stream of naturals (indexing
draws for `choice`), consumed strictly in invocation order from a shared
cursor.  A seeded Python generator is exactly such a pair of streams. -/
structure RNG where
  floats : Nat → ℚ
  nats : Nat → Nat
  idx : Nat

/-- `rng.random()`: next float draw, advancing the shared cursor. -/
def RNG.random (r : RNG) : ℚ × RNG :=
  (r.floats r.idx, { r with idx := r.idx + 1 })

/-- `rng.choice(seq)`: pick the element indexed by the next draw; `none`
models the `IndexError` Python raises on an empty sequence. -/
def RNG.choice (r : RNG) (l : List VertexKey) : Option (VertexKey × RNG) :=
  match l with
  | [] => none
  | x :: xs =>
    some (((x :: xs).getD (r.nats r.idx % (x :: xs).length) x), { r with idx := r.idx + 1 })

/-- `HoneyGraph.choose_random_start_edge`: repeatedly pick a random vertex
until one with neighbors is found, then pick a random neighbor; returns the
directed pair `(key_a, key_b)`.  The unbounded `while True` loop carries
explicit fuel; `none` models a run of the source that has not yet returned. -/
def HoneyGraph.choose_random_start_edge (g : HoneyGraph) (rng : RNG) :
    Nat → Option ((VertexKey × VertexKey) × RNG)
  | 0 => none
  | fuel + 1 =>
    match rng.choice g.vertices with
    | none => none
    | some (key_b, rng1) =>
      match g.adjacency key_b with
      | [] => g.choose_random_start_edge rng1 fuel
      | n :: ns =>
        match rng1.choice (n :: ns) with
        | none => none
        | some (key_a, rng2) => some ((key_a, key_b), rng2)

/-- `AgentMode` (growth_stepper.py). -/
inductive AgentMode where
  | GROW
  | TRAVEL
deriving DecidableEq, Repr

/-- `Agent` (growth_stepper.py): discrete simulation state of one agent.
`travel_path` is the deque of upcoming vertices (front = next hop). -/
structure Agent where
  prev : Option VertexKey := none
  curr : Option VertexKey := none
  mode : AgentMode := AgentMode.GROW
  travel_target : Option VertexKey := none
  travel_target_version : Int := -1
  travel_path : List VertexKey := []
deriving DecidableEq, Repr

/-- `GrowthStepper.__init__`: the prefer-new probability is clamped once to
`[0, 1]` at construction. -/
def prefer_new_probability (p : ℚ) : ℚ :=
  max 0 (min 1 p)

/-- Increment the traffic of edge `(a, b)` (`edge_state(a,b).traffic += 1`). -/
def bumpTraffic (g : HoneyGraph) (a b : VertexKey) : HoneyGraph :=
  { g with
    edge_state := fun k =>
      if k = edge_key a b then
        { g.edge_state k with traffic := (g.edge_state k).traffic + 1 }
      else g.edge_state k }

/-- Increment a vertex's visit counter (`vertex_state(v).visit_count += 1`). -/
def bumpVisit (g : HoneyGraph) (v : VertexKey) : HoneyGraph :=
  { g with
    vertex_state := fun w =>
      if w = v then { g.vertex_state w with visit_count := (g.vertex_state w).visit_count + 1 }
      else g.vertex_state w }

/-- `GrowthStepper._cross_z`: z-component of the 2D cross product. -/
def cross_z (ax ay bx bY : ℚ) : ℚ :=
  ax * bY - ay * bx

/-- `GrowthStepper._forward_options_left_right`: candidates are
`neighbors(curr)` minus `prev`; zero or one candidate pass through, two or
more are ordered as (left, right) by the cross product of the incoming
direction against each candidate vector, in a y-up frame (only the first two
candidates are consulted, as `candidates[0], candidates[1]` does). -/
def forward_options_left_right (prev curr : VertexKey) (layout : Layout)
    (g : HoneyGraph) : Option VertexKey × Option VertexKey :=
  match (g.neighbors curr).filter (fun ns => ns ≠ prev) with
  | [] => (none, none)
  | [c] => (some c, none)
  | c0 :: c1 :: _ =>
    let vertex_prev := layout.px prev
    let vertex_curr := layout.px curr
    let ver_cand_0 := layout.px c0
    let ver_cand_1 := layout.px c1
    let fwd_dir_x := vertex_curr.1 - vertex_prev.1
    let fwd_dir_y := -(vertex_curr.2 - vertex_prev.2)
    let c0_x := ver_cand_0.1 - vertex_curr.1
    let c0_y := -(ver_cand_0.2 - vertex_curr.2)
    let c1_x := ver_cand_1.1 - vertex_curr.1
    let c1_y := -(ver_cand_1.2 - vertex_curr.2)
    let cross0 := cross_z fwd_dir_x fwd_dir_y c0_x c0_y
    let cross1 := cross_z fwd_dir_x fwd_dir_y c1_x c1_y
    if cross1 ≤ cross0 then (some c0, some c1) else (some c1, some c0)

/-- The `candidates` list `_step_grow` builds from the (left, right) pair:
`[vertex for vertex in (left, right) if vertex is not None]`. -/
def candList (prev curr : VertexKey) (layout : Layout) (g : HoneyGraph) :
    List VertexKey :=
  let lr := forward_options_left_right prev curr layout g
  [lr.1, lr.2].filterMap id

/-- `GrowthStepper._choose_next` with the stored (already clamped) probability
`pc`.  The source indexes `candidates[0], candidates[1]` unguarded; its only
caller guarantees a nonempty list, so the empty case (unreachable there)
returns no decision. -/
def choose_next (pc : ℚ) (curr : VertexKey) (candidates : List VertexKey)
    (g : HoneyGraph) (rng : RNG) : Option VertexKey × RNG :=
  match candidates with
  | [] => (none, rng)
  | [c] => (some c, rng)
  | c0 :: c1 :: _ =>
    let e0_new := ! g.edgeExists curr c0
    let e1_new := ! g.edgeExists curr c1
    if e0_new && ! e1_new then
      let (x, rng1) := rng.random
      (some (if x < pc then c0 else c1), rng1)
    else if e1_new && ! e0_new then
      let (x, rng1) := rng.random
      (some (if x < pc then c1 else c0), rng1)
    else if e0_new && e1_new then
      let (x, rng1) := rng.random
      (some (if x < (1 : ℚ) / 2 then c0 else c1), rng1)
    else (none, rng)

/-- The graph effect of taking a growth (or start) pick `curr → nv`:
`ensure_edge_exists(curr, nv)`, then `traffic += 1`, then `visit_count += 1`. -/
def growEffect (g : HoneyGraph) (curr nv : VertexKey) : HoneyGraph :=
  bumpVisit (bumpTraffic (g.ensure_edge_exists curr nv) curr nv) nv

/-- `GrowthStepper._step_grow` (the asserted non-`None` `prev`/`curr` are
passed explicitly): returns (progressed, agent, graph, rng). -/
def step_grow (pc : ℚ) (prev curr : VertexKey) (agent : Agent) (layout : Layout)
    (g : HoneyGraph) (rng : RNG) : Bool × Agent × HoneyGraph × RNG :=
  let candidates := candList prev curr layout g
  if candidates.isEmpty then (false, agent, g, rng)
  else
    match choose_next pc curr candidates g rng with
    | (none, rng1) => (false, agent, g, rng1)
    | (some next_vertex, rng1) =>
      (true, { agent with prev := some curr, curr := some next_vertex },
        growEffect g curr next_vertex, rng1)

/-- `GrowthStepper._clear_travel_plan`. -/
def clear_travel_plan (agent : Agent) : Agent :=
  { agent with travel_target := none, travel_target_version := -1, travel_path := [] }

/-- `GrowthStepper._enter_travel_mode`. -/
def enter_travel_mode (agent : Agent) : Agent :=
  clear_travel_plan { agent with mode := AgentMode.TRAVEL }

/-- `GrowthStepper._is_travel_target_invalid`: target set and its current
version differs from the stored snapshot. -/
def is_travel_target_invalid (agent : Agent) (g : HoneyGraph) : Bool :=
  match agent.travel_target with
  | none => false
  | some t => decide (g.version t ≠ agent.travel_target_version)

/-- `GrowthStepper._reconstruct_path`, as a recursion on fuel: follow parent
pointers from `target` back to `start`, producing the forward path (excluding
`start`, including `target`).  `none` models a lookup the source's
`while current != start` loop would fail on (absent parent) or an unboundedly
long chain; BFS-produced parent maps are proved below to reconstruct. -/
def reconstructAux (parent : VertexKey → Option VertexKey) (start : VertexKey) :
    Nat → VertexKey → Option (List VertexKey)
  | 0, cur => if cur = start then some [] else none
  | fuel + 1, cur =>
    if cur = start then some []
    else
      match parent cur with
      | none => none
      | some p => (reconstructAux parent start fuel p).map (fun l => l ++ [cur])

/-- The inner `for neighbor in graph.iter_existing_neighbors(vertex)` loop of
`GrowthStepper._bfs_to_nearest_frontier`: skip visited neighbors, mark fresh
ones visited with a parent pointer, return the first frontier vertex found
(`Sum.inl`), otherwise enqueue and continue (`Sum.inr` carries the updated
visited/parent/queue). -/
def bfsProcess (g : HoneyGraph) (vertex : VertexKey) :
    List VertexKey → List VertexKey → (VertexKey → Option VertexKey) → List VertexKey →
    Sum (VertexKey × (VertexKey → Option VertexKey))
      (List VertexKey × (VertexKey → Option VertexKey) × List VertexKey)
  | [], visited, parent, queue => Sum.inr (visited, parent, queue)
  | nb :: rest, visited, parent, queue =>
    if nb ∈ visited then bfsProcess g vertex rest visited parent queue
    else
      let visited1 := nb :: visited
      let parent1 := fun w => if w = nb then some vertex else parent w
      if g.is_frontier_vertex nb then Sum.inl (nb, parent1)
      else bfsProcess g vertex rest visited1 parent1 (queue ++ [nb])

/-- The `while open_queue` loop of `_bfs_to_nearest_frontier`, fuelled.  Fuel
`0` returns as an empty queue would; the fuel used by `bfs_to_nearest_frontier`
is proved sufficient, so this case only arises when the queue is in fact
exhausted. -/
def bfsLoop (g : HoneyGraph) :
    Nat → List VertexKey → (VertexKey → Option VertexKey) → List VertexKey →
    Option VertexKey × (VertexKey → Option VertexKey)
  | 0, _, parent, _ => (none, parent)
  | _ + 1, _, parent, [] => (none, parent)
  | fuel + 1, visited, parent, vertex :: rest =>
    match bfsProcess g vertex (g.iter_existing_neighbors vertex) visited parent rest with
    | Sum.inl (t, parent1) => (some t, parent1)
    | Sum.inr (visited1, parent1, queue1) => bfsLoop g fuel visited1 parent1 queue1

/-- `GrowthStepper._bfs_to_nearest_frontier`: a frontier start is its own
target with an empty path; otherwise FIFO BFS over existing edges from
`start`, the first frontier vertex discovered being the target, with the
path reconstructed from the parent map. -/
def bfs_to_nearest_frontier (start : VertexKey) (g : HoneyGraph) :
    Option VertexKey × List VertexKey :=
  if g.is_frontier_vertex start then (some start, [])
  else
    match bfsLoop g (g.vertices.length + 2) [start] (fun _ => none) [start] with
    | (some t, parent) =>
      (some t, (reconstructAux parent start (g.vertices.length + 2) t).getD [])
    | (none, _) => (none, [])

/-- `GrowthStepper._plan_travel_to_nearest_frontier` (with the asserted
non-`None` `curr` passed explicitly): on BFS success store target, its current
version, and the path; `none` when no route was found. -/
def plan_travel_to_nearest_frontier (curr : VertexKey) (agent : Agent)
    (g : HoneyGraph) : Option Agent :=
  match bfs_to_nearest_frontier curr g with
  | (none, _) => none
  | (some target, path) =>
    some { agent with
      travel_target := some target
      travel_target_version := g.version target
      travel_path := path }

/-- `GrowthStepper._traverse_one_travel_edge`: pop the path head, bump the
traversed edge's traffic and the new vertex's visit count, advance
`prev ← curr, curr ← popped`; no-op on an empty path.  (The source asserts
`curr is not None`; callers inside `step` guarantee it, and the `none` case
here mirrors the early return on an empty path.) -/
def traverse_one_travel_edge (agent : Agent) (g : HoneyGraph) : Agent × HoneyGraph :=
  match agent.curr with
  | none => (agent, g)
  | some c =>
    match agent.travel_path with
    | [] => (agent, g)
    | next_vertex :: rest =>
      let g1 := bumpVisit (bumpTraffic g c next_vertex) next_vertex
      ({ agent with prev := some c, curr := some next_vertex, travel_path := rest }, g1)

/-- The tail of `GrowthStepper._step_travel` after planning: traverse one
edge, then on arrival (`curr == travel_target` with an exhausted path) switch
back to GROW and clear the plan. -/
def travel_arrival_check (agent : Agent) (g : HoneyGraph) : Agent × HoneyGraph :=
  let (a1, g1) := traverse_one_travel_edge agent g
  if a1.travel_target ≠ none ∧ a1.curr = a1.travel_target ∧ a1.travel_path = [] then
    (clear_travel_plan { a1 with mode := AgentMode.GROW }, g1)
  else (a1, g1)

/-- `GrowthStepper._step_travel` (with the asserted non-`None` `curr` passed
explicitly): soft-cancel an invalidated target, replan when target or path is
missing, then traverse one edge and run the arrival check. -/
def step_travel (curr : VertexKey) (agent : Agent) (g : HoneyGraph) : Agent × HoneyGraph :=
  let agent1 := if is_travel_target_invalid agent g then clear_travel_plan agent else agent
  if agent1.travel_target = none ∨ agent1.travel_path = [] then
    match plan_travel_to_nearest_frontier curr agent1 g with
    | none => (agent1, g)
    | some agent2 => travel_arrival_check agent2 g
  else travel_arrival_check agent1 g

/-- `GrowthStepper._initialize_agent`: put the agent on a random directed
start edge, materialise that edge, bump its traffic and the destination's
visit count, mode GROW, clear the travel plan.  `none` propagates the fuelled
start-edge search. -/
def initialize_agent (fuel : Nat) (agent : Agent) (g : HoneyGraph) (rng : RNG) :
    Option (Agent × HoneyGraph × RNG) :=
  match g.choose_random_start_edge rng fuel with
  | none => none
  | some ((a, b), rng1) =>
    some (clear_travel_plan { agent with prev := some a, curr := some b, mode := AgentMode.GROW },
      growEffect g a b, rng1)

/-- `GrowthStepper.step`: no-op on an empty frontier; initialise an
uninitialised agent; in GROW mode attempt a growth move and on blocking fall
through—within the same invocation—to a travel step; in TRAVEL mode perform
one travel step. -/
def step (pc : ℚ) (fuel : Nat) (agent : Agent) (layout : Layout) (g : HoneyGraph)
    (rng : RNG) : Option (Agent × HoneyGraph × RNG) :=
  if g.frontier_is_empty then some (agent, g, rng)
  else
    match agent.prev, agent.curr with
    | some prev, some curr =>
      match agent.mode with
      | AgentMode.GROW =>
        let r := step_grow pc prev curr agent layout g rng
        if r.1 then some r.2
        else
          let (a1, g1) := step_travel curr (enter_travel_mode r.2.1) r.2.2.1
          some (a1, g1, r.2.2.2)
      | AgentMode.TRAVEL =>
        let (a1, g1) := step_travel curr agent g
        some (a1, g1, rng)
    | _, _ => initialize_agent fuel agent g rng

/-- `_AnimPhase` (agent_controller.py). -/
inductive AnimPhase where
  | IDLE
  | MOVING
  | DWELLING
  | STOPPED
deriving DecidableEq, Repr

/-- `_Move` (agent_controller.py): one animated move between two vertices. -/
structure AnimMove where
  from_key : VertexKey
  to_key : VertexKey
  start_ms : Int
  end_ms : Int
deriving DecidableEq, Repr

/-- `SimulationTimingConfig`: durations consumed by the animator. -/
structure SimulationTimingConfig where
  edge_traverse_ms : Int
  travel_vertex_dwell_ms : Int
deriving DecidableEq, Repr

/-- `_AgentAnimator` state (`__init__`). -/
structure Animator where
  phase : AnimPhase := AnimPhase.IDLE
  pos_px : ℚ × ℚ := (0, 0)
  move : Option AnimMove := none
  dwell_until_ms : Int := 0
  last_mode : AgentMode := AgentMode.GROW

/-- `py5.lerp`. -/
def lerp (a b t : ℚ) : ℚ :=
  a + (b - a) * t

/-- `_AgentAnimator._dwell_ms_for_mode`. -/
def dwell_ms_for_mode (timing : SimulationTimingConfig) (mode : AgentMode) : Int :=
  if mode = AgentMode.TRAVEL then timing.travel_vertex_dwell_ms else 0

/-- `_AgentAnimator._update_moving`: interpolate along the in-flight move
with clamped normalized time; at `t ≥ 1` snap to the destination and start
dwelling.  (The source asserts `self._move is not None`; `update` only calls
this in MOVING phase, where a move is set — a missing move is returned
unchanged here and never arises from `animUpdate`.) -/
def update_moving (timing : SimulationTimingConfig) (now_ms : Int) (layout : Layout)
    (anim : Animator) : Animator :=
  match anim.move with
  | none => anim
  | some mv =>
    let from_px := layout.px mv.from_key
    let to_px := layout.px mv.to_key
    let duration_ms : Int := max 1 (mv.end_ms - mv.start_ms)
    let t : ℚ := ((now_ms - mv.start_ms : Int) : ℚ) / ((duration_ms : Int) : ℚ)
    let t_clamped := min 1 (max 0 t)
    let pos := (lerp from_px.1 to_px.1 t_clamped, lerp from_px.2 to_px.2 t_clamped)
    if t_clamped < 1 then { anim with pos_px := pos }
    else
      { anim with
        pos_px := to_px
        move := none
        phase := AnimPhase.DWELLING
        dwell_until_ms := now_ms + dwell_ms_for_mode timing anim.last_mode }

/-- `_AgentAnimator._start_next_move`: on an empty frontier transition to
STOPPED; otherwise trigger exactly one discrete step, assert the agent is
initialised (`none` models a failure of that assertion, proved unreachable),
and either start a MOVING phase toward the new `curr` or enter a minimal
1 ms dwell when the step made no move. -/
def start_next_move (pc : ℚ) (fuel : Nat) (timing : SimulationTimingConfig)
    (now_ms : Int) (anim : Animator) (agent : Agent) (layout : Layout)
    (g : HoneyGraph) (rng : RNG) : Option (Animator × Agent × HoneyGraph × RNG) :=
  if g.frontier_is_empty then some ({ anim with phase := AnimPhase.STOPPED }, agent, g, rng)
  else
    let old_prev := agent.prev
    let old_curr := agent.curr
    match step pc fuel agent layout g rng with
    | none => none
    | some (agent1, g1, rng1) =>
      match agent1.prev, agent1.curr with
      | some from_key, some to_key =>
        let anim1 := { anim with last_mode := agent1.mode }
        if old_curr = agent1.curr ∧ old_prev = agent1.prev then
          some ({ anim1 with
              pos_px := layout.px to_key
              phase := AnimPhase.DWELLING
              dwell_until_ms := now_ms + 1 }, agent1, g1, rng1)
        else
          let mv : AnimMove :=
            { from_key := from_key
              to_key := to_key
              start_ms := now_ms
              end_ms := now_ms + timing.edge_traverse_ms }
          some ({ anim1 with
              move := some mv
              phase := AnimPhase.MOVING
              pos_px := layout.px from_key }, agent1, g1, rng1)
      | _, _ => none

/-- `_AgentAnimator.update`: STOPPED is inert; IDLE requests the next move;
MOVING interpolates; DWELLING waits out its deadline then requests the next
move. -/
def animUpdate (pc : ℚ) (fuel : Nat) (timing : SimulationTimingConfig) (now_ms : Int)
    (anim : Animator) (agent : Agent) (layout : Layout) (g : HoneyGraph) (rng : RNG) :
    Option (Animator × Agent × HoneyGraph × RNG) :=
  match anim.phase with
  | AnimPhase.STOPPED => some (anim, agent, g, rng)
  | AnimPhase.IDLE => start_next_move pc fuel timing now_ms anim agent layout g rng
  | AnimPhase.MOVING => some (update_moving timing now_ms layout anim, agent, g, rng)
  | AnimPhase.DWELLING =>
    if now_ms < anim.dwell_until_ms then some (anim, agent, g, rng)
    else start_next_move pc fuel timing now_ms anim agent layout g rng

/-- `AgentController.update`: update every registered `(agent, animator)`
runtime in registration order against one shared timestamp, threading the
shared graph and the shared decision RNG through them. -/
def controllerUpdate (pc : ℚ) (fuel : Nat) (timing : SimulationTimingConfig)
    (layout : Layout) (now_ms : Int) :
    List (Agent × Animator) → HoneyGraph → RNG →
    Option (List (Agent × Animator) × HoneyGraph × RNG)
  | [], g, rng => some ([], g, rng)
  | (agent, anim) :: rest, g, rng =>
    match animUpdate pc fuel timing now_ms anim agent layout g rng with
    | none => none
    | some (anim1, agent1, g1, rng1) =>
      match controllerUpdate pc fuel timing layout now_ms rest g1 rng1 with
      | none => none
      | some (rest1, g2, rng2) => some ((agent1, anim1) :: rest1, g2, rng2)

/-- Repeated animator updates of a single runtime over a timestamp sequence. -/
def animUpdates (pc : ℚ) (fuel : Nat) (timing : SimulationTimingConfig)
    (layout : Layout) :
    List Int → Animator → Agent → HoneyGraph → RNG →
    Option (Animator × Agent × HoneyGraph × RNG)
  | [], anim, agent, g, rng => some (anim, agent, g, rng)
  | now_ms :: ts, anim, agent, g, rng =>
    match animUpdate pc fuel timing now_ms anim agent layout g rng with
    | none => none
    | some (anim1, agent1, g1, rng1) => animUpdates pc fuel timing layout ts anim1 agent1 g1 rng1

/-- One complete run configuration: clamp input probability, layout/topology,
agent registration order, timing, RNG stream (the seed's unfolding), the
start-edge search fuel, and the discrete sequence of update timestamps. -/
structure RunInputs where
  prefer_new : ℚ
  layout : Layout
  timing : SimulationTimingConfig
  agents : List Agent
  rng : RNG
  fuel : Nat
  timestamps : List Int

/-- Controller updates folded over the timestamp sequence, recording after
every update the `(prev, curr)` pair of every agent in registration order.
The graph is built from the layout, each agent gets a fresh animator, and the
clamped prefer-new probability is applied once, as construction does. -/
def runTrace (inputs : RunInputs) : Option (List (List (Option VertexKey × Option VertexKey))) :=
  let pc := prefer_new_probability inputs.prefer_new
  let go :
      List Int → List (Agent × Animator) → HoneyGraph → RNG →
      Option (List (List (Option VertexKey × Option VertexKey))) :=
    fun ts => ts.rec (motive := fun _ => List (Agent × Animator) → HoneyGraph → RNG →
        Option (List (List (Option VertexKey × Option VertexKey))))
      (fun _ _ _ => some [])
      (fun now_ms _ ih runtimes g rng =>
        match controllerUpdate pc inputs.fuel inputs.timing inputs.layout now_ms runtimes g rng with
        | none => none
        | some (runtimes1, g1, rng1) =>
          match ih runtimes1 g1 rng1 with
          | none => none
          | some traces => some ((runtimes1.map (fun r => (r.1.prev, r.1.curr))) :: traces))
  go inputs.timestamps (inputs.agents.map (fun a => (a, {}))) (HoneyGraph.init inputs.layout)
    inputs.rng

/-! ## Concrete fixtures: the C4 chain scenario and small witness worlds -/

/-- Vertex A of the C4 chain example. -/
def chainA : VertexKey := (0, 0)

/-- Vertex B of the C4 chain example. -/
def chainB : VertexKey := (1, 0)

/-- Vertex C of the C4 chain example. -/
def chainC : VertexKey := (2, 0)

/-- Vertex D of the C4 chain example. -/
def chainD : VertexKey := (3, 0)

/-- The C4 example state: a chain A–B–C–D whose edges A–B, B–C, C–D all
exist, with D the only frontier vertex (one further incident edge of D still
missing, counted in its `open_incident_edges`). -/
def chainGraph : HoneyGraph :=
  { vertices := [chainA, chainB, chainC, chainD]
    adjacency := fun v =>
      if v = chainA then [chainB]
      else if v = chainB then [chainA, chainC]
      else if v = chainC then [chainB, chainD]
      else if v = chainD then [chainC]
      else []
    edge_state := fun k =>
      if k = edge_key chainA chainB ∨ k = edge_key chainB chainC ∨ k = edge_key chainC chainD
      then { exists_ := true, traffic := 0 }
      else {}
    vertex_state := fun v =>
      if v = chainD then { open_incident_edges := 1 } else {}
    frontier_count := 1
    active_edges := [edge_key chainA chainB, edge_key chainB chainC, edge_key chainC chainD] }

/-- A fully closed single-vertex component: no frontier vertex is reachable
from `chainA` here. -/
def cexGraph : HoneyGraph :=
  { vertices := [chainA]
    adjacency := fun _ => []
    edge_state := fun _ => {}
    vertex_state := fun _ => {}
    frontier_count := 0
    active_edges := [] }

/-- An agent inside `cexGraph` whose stored travel target has a stale version
snapshot (5, while the graph holds 0). -/
def cexAgent : Agent :=
  { prev := some chainA
    curr := some chainA
    mode := AgentMode.TRAVEL
    travel_target := some chainA
    travel_target_version := 5
    travel_path := [] }

/-- A two-vertex, one-edge layout for witnesses. -/
def wLayout : Layout :=
  { vertices := [(0, 0), (1, 0)]
    edges := [((0, 0), (1, 0))]
    px := fun _ => (0, 0) }

/-- The constructed graph of `wLayout`: both vertices open, frontier of 2. -/
def wGraph : HoneyGraph := HoneyGraph.init wLayout

/-- A one-vertex, zero-edge layout: its constructed graph starts with an
empty frontier. -/
def wLayout0 : Layout :=
  { vertices := [(0, 0)]
    edges := []
    px := fun _ => (0, 0) }

/-- The constructed graph of `wLayout0` (frontier already empty). -/
def wGraph0 : HoneyGraph := HoneyGraph.init wLayout0

/-- A concrete RNG stream: every float draw 0, every index draw 0. -/
def wRng : RNG :=
  { floats := fun _ => 0
    nats := fun _ => 0
    idx := 0 }

/-- `wRng` after two index draws. -/
def wRng2 : RNG :=
  { floats := fun _ => 0
    nats := fun _ => 0
    idx := 2 }

/-- A concrete timing configuration. -/
def wTiming : SimulationTimingConfig :=
  { edge_traverse_ms := 10
    travel_vertex_dwell_ms := 5 }

/-- A freshly constructed, uninitialised agent (all defaults). -/
def wAgentNew : Agent := {}

/-- The agent `step` produces from `wAgentNew` on `wGraph` with `wRng`:
start edge (1,0) → (0,0). -/
def wAgentInit : Agent :=
  { prev := some (1, 0)
    curr := some (0, 0)
    mode := AgentMode.GROW
    travel_target := none
    travel_target_version := -1
    travel_path := [] }

/-- An initialised GROW agent of `wGraph` sitting at (1,0) having come from
(0,0); its only forward candidate list is empty. -/
def wAgentGrow : Agent :=
  { prev := some (0, 0)
    curr := some (1, 0)
    mode := AgentMode.GROW
    travel_target := none
    travel_target_version := -1
    travel_path := [] }

/-- A TRAVEL agent of `chainGraph` at A, about to pop B from its plan
towards D. -/
def wAgentTravel : Agent :=
  { prev := some chainA
    curr := some chainA
    mode := AgentMode.TRAVEL
    travel_target := some chainD
    travel_target_version := 0
    travel_path := [chainB, chainC, chainD] }

/-- Two identical run configurations for the determinism witness. -/
def wInputsA : RunInputs :=
  { prefer_new := 1 / 2
    layout := wLayout
    timing := wTiming
    agents := [wAgentNew]
    rng := wRng
    fuel := 1
    timestamps := [0, 1] }

/-- The same run configuration, written a second time. -/
def wInputsB : RunInputs :=
  { prefer_new := 1 / 2
    layout := wLayout
    timing := wTiming
    agents := [wAgentNew]
    rng := wRng
    fuel := 1
    timestamps := [0, 1] }

/-! ## Basic lemmas about edge keys and the graph mutators -/

theorem vkLe_antisymm {a b : VertexKey} (hab : vkLe a b = true) (hba : vkLe b a = true) :
    a = b := by
  unfold vkLe at hab hba
  simp only [decide_eq_true_eq] at hab hba
  have h1 : a.1 = b.1 := by omega
  have h2 : a.2 = b.2 := by omega
  exact Prod.ext h1 h2

theorem vkLe_total (a b : VertexKey) : vkLe a b = true ∨ vkLe b a = true := by
  unfold vkLe
  simp only [decide_eq_true_eq]
  omega

/-- The canonical edge key is direction-independent. -/
theorem edge_key_comm (a b : VertexKey) : edge_key a b = edge_key b a := by
  unfold edge_key
  by_cases hab : vkLe a b = true <;> by_cases hba : vkLe b a = true
  · have h := vkLe_antisymm hab hba
    subst h; rfl
  · simp [hab, hba]
  · simp [hab, hba]
  · rcases vkLe_total a b with h | h
    · exact absurd h hab
    · exact absurd h hba

theorem HoneyGraph.edgeExists_comm (g : HoneyGraph) (a b : VertexKey) :
    g.edgeExists a b = g.edgeExists b a := by
  unfold HoneyGraph.edgeExists
  rw [edge_key_comm]

/-- Pointwise effect of `_decrement_open_incident_edges` on `open_incident_edges`. -/
theorem dec_open (g : HoneyGraph) (v w : VertexKey) :
    (g.decrement_open_incident_edges v).open_incident w =
      if w = v ∧ 0 < g.open_incident v then g.open_incident w - 1
      else g.open_incident w := by
  simp only [HoneyGraph.decrement_open_incident_edges, HoneyGraph.open_incident]
  split_ifs with h1 h2 h3 <;> simp_all <;> omega

/-- Pointwise effect of `_decrement_open_incident_edges` on `version`: the
bump happens exactly when the counter moves from 1 to 0. -/
theorem dec_version (g : HoneyGraph) (v w : VertexKey) :
    (g.decrement_open_incident_edges v).version w =
      if w = v ∧ g.open_incident v = 1 then g.version w + 1 else g.version w := by
  simp only [HoneyGraph.decrement_open_incident_edges, HoneyGraph.version,
    HoneyGraph.open_incident]
  split_ifs with h1 h2 h3 <;> by_cases hw : w = v <;> simp_all <;> omega

/-- `_decrement_open_incident_edges` leaves `visit_count` alone. -/
theorem dec_visit (g : HoneyGraph) (v w : VertexKey) :
    (g.decrement_open_incident_edges v).visit_count w = g.visit_count w := by
  simp only [HoneyGraph.decrement_open_incident_edges, HoneyGraph.visit_count]
  split_ifs with h1 h2 <;> by_cases hw : w = v <;> simp_all

/-- Effect of `_decrement_open_incident_edges` on the frontier count: it
drops by one exactly when the counter moves from 1 to 0. -/
theorem dec_frontier (g : HoneyGraph) (v : VertexKey) :
    (g.decrement_open_incident_edges v).frontier_count =
      if g.open_incident v = 1 then g.frontier_count - 1 else g.frontier_count := by
  simp only [HoneyGraph.decrement_open_incident_edges, HoneyGraph.open_incident]
  split_ifs with h1 h2 h3 <;> simp_all <;> omega

theorem dec_vertices (g : HoneyGraph) (v : VertexKey) :
    (g.decrement_open_incident_edges v).vertices = g.vertices := by
  simp only [HoneyGraph.decrement_open_incident_edges]
  split_ifs <;> rfl

theorem dec_adjacency (g : HoneyGraph) (v : VertexKey) :
    (g.decrement_open_incident_edges v).adjacency = g.adjacency := by
  simp only [HoneyGraph.decrement_open_incident_edges]
  split_ifs <;> rfl

theorem dec_edge_state (g : HoneyGraph) (v : VertexKey) :
    (g.decrement_open_incident_edges v).edge_state = g.edge_state := by
  simp only [HoneyGraph.decrement_open_incident_edges]
  split_ifs <;> rfl

/-- The first half of `ensure_edge_exists` (mark existing + track active),
split out to state its effect compositionally. -/
def markEdgeActive (g : HoneyGraph) (key_a key_b : VertexKey) : HoneyGraph :=
  let key := edge_key key_a key_b
  let st := g.edge_state key
  { g with
    edge_state := fun k => if k = key then { st with exists_ := true } else g.edge_state k
    active_edges := key :: g.active_edges }

/-- `ensure_edge_exists` unfolded through `markEdgeActive`. -/
theorem ensure_eq (g : HoneyGraph) (a b : VertexKey) :
    g.ensure_edge_exists a b =
      if (g.edge_state (edge_key a b)).exists_ then g
      else ((markEdgeActive g a b).decrement_open_incident_edges a).decrement_open_incident_edges
        b := rfl

theorem markEdgeActive_vertex_state (g : HoneyGraph) (a b : VertexKey) :
    (markEdgeActive g a b).vertex_state = g.vertex_state := rfl

theorem markEdgeActive_vertices (g : HoneyGraph) (a b : VertexKey) :
    (markEdgeActive g a b).vertices = g.vertices := rfl

theorem markEdgeActive_adjacency (g : HoneyGraph) (a b : VertexKey) :
    (markEdgeActive g a b).adjacency = g.adjacency := rfl

theorem markEdgeActive_frontier (g : HoneyGraph) (a b : VertexKey) :
    (markEdgeActive g a b).frontier_count = g.frontier_count := rfl

theorem markEdgeActive_open (g : HoneyGraph) (a b v : VertexKey) :
    (markEdgeActive g a b).open_incident v = g.open_incident v := rfl

theorem markEdgeActive_version (g : HoneyGraph) (a b v : VertexKey) :
    (markEdgeActive g a b).version v = g.version v := rfl

/-- Pointwise effect of `ensure_edge_exists` on edge states: the canonical key
gets its `exists` flag set (traffic untouched), all other edges unchanged. -/
theorem ensure_edge_state (g : HoneyGraph) (a b : VertexKey) (k : EdgeKey) :
    (g.ensure_edge_exists a b).edge_state k =
      if k = edge_key a b then { g.edge_state k with exists_ := true }
      else g.edge_state k := by
  rw [ensure_eq, markEdgeActive]
  split_ifs with h1 h2 <;> simp_all [dec_edge_state]
  cases hs : g.edge_state (edge_key a b)
  simp_all

theorem ensure_vertices (g : HoneyGraph) (a b : VertexKey) :
    (g.ensure_edge_exists a b).vertices = g.vertices := by
  rw [ensure_eq]
  split_ifs <;> simp [dec_vertices, markEdgeActive_vertices]

theorem ensure_adjacency (g : HoneyGraph) (a b : VertexKey) :
    (g.ensure_edge_exists a b).adjacency = g.adjacency := by
  rw [ensure_eq]
  split_ifs <;> simp [dec_adjacency, markEdgeActive_adjacency]

theorem bumpTraffic_edge_state (g : HoneyGraph) (a b : VertexKey) (k : EdgeKey) :
    (bumpTraffic g a b).edge_state k =
      if k = edge_key a b then
        { g.edge_state k with traffic := (g.edge_state k).traffic + 1 }
      else g.edge_state k := by
  unfold bumpTraffic
  split_ifs <;> simp_all

theorem bumpTraffic_vertex_state (g : HoneyGraph) (a b : VertexKey) :
    (bumpTraffic g a b).vertex_state = g.vertex_state := rfl

theorem bumpTraffic_vertices (g : HoneyGraph) (a b : VertexKey) :
    (bumpTraffic g a b).vertices = g.vertices := rfl

theorem bumpTraffic_adjacency (g : HoneyGraph) (a b : VertexKey) :
    (bumpTraffic g a b).adjacency = g.adjacency := rfl

theorem bumpTraffic_frontier (g : HoneyGraph) (a b : VertexKey) :
    (bumpTraffic g a b).frontier_count = g.frontier_count := rfl

theorem bumpVisit_vertex_state (g : HoneyGraph) (v w : VertexKey) :
    (bumpVisit g v).vertex_state w =
      if w = v then
        { g.vertex_state w with visit_count := (g.vertex_state w).visit_count + 1 }
      else g.vertex_state w := by
  unfold bumpVisit
  split_ifs <;> simp_all

theorem bumpVisit_edge_state (g : HoneyGraph) (v : VertexKey) :
    (bumpVisit g v).edge_state = g.edge_state := rfl

theorem bumpVisit_vertices (g : HoneyGraph) (v : VertexKey) :
    (bumpVisit g v).vertices = g.vertices := rfl

theorem bumpVisit_adjacency (g : HoneyGraph) (v : VertexKey) :
    (bumpVisit g v).adjacency = g.adjacency := rfl

theorem bumpVisit_frontier (g : HoneyGraph) (v : VertexKey) :
    (bumpVisit g v).frontier_count = g.frontier_count := rfl

theorem bumpVisit_open (g : HoneyGraph) (v w : VertexKey) :
    (bumpVisit g v).open_incident w = g.open_incident w := by
  unfold HoneyGraph.open_incident
  rw [bumpVisit_vertex_state]
  split_ifs <;> rfl

theorem bumpVisit_version (g : HoneyGraph) (v w : VertexKey) :
    (bumpVisit g v).version w = g.version w := by
  unfold HoneyGraph.version
  rw [bumpVisit_vertex_state]
  split_ifs <;> rfl
/-- Characterization of `version` across one `ensure_edge_exists` call: it
increases by exactly 1 precisely when the vertex's open-incident counter was
positive before the call and is zero after it, and is otherwise unchanged. -/
theorem ensure_version_char (g : HoneyGraph) (a b v : VertexKey) :
    (g.ensure_edge_exists a b).version v =
      (if 0 < g.open_incident v ∧ (g.ensure_edge_exists a b).open_incident v = 0
       then g.version v + 1 else g.version v) := by
  by_cases hex : (g.edge_state (edge_key a b)).exists_
  · rw [ensure_eq, if_pos hex]
    split_ifs with h
    · omega
    · rfl
  · rw [ensure_eq, if_neg hex]
    by_cases hva : v = a
    · by_cases hvb : v = b
      · subst hva; subst hvb
        simp only [dec_version, dec_open, markEdgeActive_version, markEdgeActive_open,
          true_and, and_self, if_true, eq_self_iff_true]
        split_ifs <;> omega
      · subst hva
        simp only [dec_version, dec_open, markEdgeActive_version, markEdgeActive_open, hvb,
          false_and, if_false, true_and, and_self, if_true, eq_self_iff_true]
        split_ifs <;> simp_all <;> omega
    · by_cases hvb : v = b
      · subst hvb
        simp only [dec_version, dec_open, markEdgeActive_version, markEdgeActive_open, hva,
          false_and, if_false, true_and, and_self, if_true, eq_self_iff_true]
        split_ifs <;> simp_all <;> omega
      · simp only [dec_version, dec_open, markEdgeActive_version, markEdgeActive_open, hva, hvb,
          false_and, if_false]
        split_ifs <;> omega

/-- `open_incident_edges` never increases across `ensure_edge_exists`. -/
theorem ensure_open_le (g : HoneyGraph) (a b v : VertexKey) :
    (g.ensure_edge_exists a b).open_incident v ≤ g.open_incident v := by
  rw [ensure_eq]
  split_ifs with hex
  · omega
  · simp only [dec_open, markEdgeActive_open]
    by_cases hva : v = a <;> by_cases hvb : v = b
    · subst hva; subst hvb
      simp only [eq_self_iff_true, true_and]
      split_ifs <;> omega
    · subst hva
      simp only [hvb, false_and, if_false, eq_self_iff_true, true_and]
      split_ifs <;> omega
    · subst hvb
      simp only [hva, false_and, if_false, eq_self_iff_true, true_and]
      split_ifs <;> omega
    · simp only [hva, hvb, false_and, if_false, le_refl]

/-- One `ensure_edge_exists` call lowers `open_incident_edges` by at most 2. -/
theorem ensure_open_ge (g : HoneyGraph) (a b v : VertexKey) :
    g.open_incident v - 2 ≤ (g.ensure_edge_exists a b).open_incident v := by
  rw [ensure_eq]
  split_ifs with hex
  · omega
  · simp only [dec_open, markEdgeActive_open]
    by_cases hva : v = a <;> by_cases hvb : v = b
    · subst hva; subst hvb
      simp only [eq_self_iff_true, true_and]
      split_ifs <;> omega
    · subst hva
      simp only [hvb, false_and, if_false, eq_self_iff_true, true_and]
      split_ifs <;> omega
    · subst hvb
      simp only [hva, false_and, if_false, eq_self_iff_true, true_and]
      split_ifs <;> omega
    · simp only [hva, hvb, false_and, if_false]
      omega

/-- `ensure_edge_exists` keeps `open_incident_edges` nonnegative. -/
theorem ensure_open_nonneg (g : HoneyGraph) (a b v : VertexKey)
    (h : 0 ≤ g.open_incident v) : 0 ≤ (g.ensure_edge_exists a b).open_incident v := by
  rw [ensure_eq]
  split_ifs with hex
  · omega
  · simp only [dec_open, markEdgeActive_open]
    by_cases hva : v = a <;> by_cases hvb : v = b
    · subst hva; subst hvb
      simp only [eq_self_iff_true, true_and]
      split_ifs <;> omega
    · subst hva
      simp only [hvb, false_and, if_false, eq_self_iff_true, true_and]
      split_ifs <;> omega
    · subst hvb
      simp only [hva, false_and, if_false, eq_self_iff_true, true_and]
      split_ifs <;> omega
    · simp only [hva, hvb, false_and, if_false]
      omega

/-- `ensure_edge_exists` does not touch counters of non-endpoints. -/
theorem ensure_open_off (g : HoneyGraph) (a b v : VertexKey) (hva : v ≠ a) (hvb : v ≠ b) :
    (g.ensure_edge_exists a b).open_incident v = g.open_incident v := by
  rw [ensure_eq]
  split_ifs with hex
  · rfl
  · simp only [dec_open, markEdgeActive_open, hva, hvb, false_and, if_false]

/-- `version` is monotone across `ensure_edge_exists`. -/
theorem ensure_version_mono (g : HoneyGraph) (a b v : VertexKey) :
    g.version v ≤ (g.ensure_edge_exists a b).version v := by
  rw [ensure_version_char]
  split_ifs <;> omega

/-- `version` grows by at most 1 across one `ensure_edge_exists` call. -/
theorem ensure_version_le (g : HoneyGraph) (a b v : VertexKey) :
    (g.ensure_edge_exists a b).version v ≤ g.version v + 1 := by
  rw [ensure_version_char]
  split_ifs <;> omega

/-- `version` of a non-endpoint is unchanged by `ensure_edge_exists`. -/
theorem ensure_version_off (g : HoneyGraph) (a b v : VertexKey) (hva : v ≠ a) (hvb : v ≠ b) :
    (g.ensure_edge_exists a b).version v = g.version v := by
  rw [ensure_version_char]
  rw [ensure_open_off g a b v hva hvb]
  split_ifs with h
  · omega
  · rfl

/-- One `ensure_edge_exists` call lowers `frontier_count` by at most one per
endpoint and never raises it. -/
theorem ensure_frontier_bounds (g : HoneyGraph) (a b : VertexKey) :
    g.frontier_count - 2 ≤ (g.ensure_edge_exists a b).frontier_count ∧
      (g.ensure_edge_exists a b).frontier_count ≤ g.frontier_count := by
  rw [ensure_eq]
  split_ifs with hex
  · omega
  · simp only [dec_frontier, dec_open, markEdgeActive_frontier, markEdgeActive_open]
    by_cases hab : b = a
    · subst hab
      simp only [eq_self_iff_true, true_and]
      split_ifs <;> omega
    · simp only [hab, false_and, if_false]
      split_ifs <;> omega

/-- After `ensure_edge_exists(a, b)` the edge `(a, b)` exists. -/
theorem ensure_exists_true (g : HoneyGraph) (a b : VertexKey) :
    (g.ensure_edge_exists a b).edgeExists a b = true := by
  rw [HoneyGraph.edgeExists, ensure_edge_state]
  simp

/-- `ensure_edge_exists` on an already-existing edge is a complete no-op. -/
theorem ensure_noop_of_exists (g : HoneyGraph) (a b : VertexKey)
    (h : g.edgeExists a b = true) : g.ensure_edge_exists a b = g := by
  rw [ensure_eq, if_pos]
  exact h

/-- The second of two `ensure_edge_exists` calls on the same pair (in either
argument order) is a complete no-op. -/
theorem ensure_second_call_noop (g : HoneyGraph) (a b : VertexKey) :
    (g.ensure_edge_exists a b).ensure_edge_exists b a = g.ensure_edge_exists a b := by
  apply ensure_noop_of_exists
  rw [HoneyGraph.edgeExists_comm]
  exact ensure_exists_true g a b

/-- C2: `ensure_edge_exists` is idempotent: after `ensure_edge_exists(a, b)`
the edge exists; a second call on the same pair — in either argument order,
edge keys being canonicalized by sorting — changes nothing at all (so no
further counter decrement, version bump, or frontier decrement); and across
both calls each endpoint's `version` rises at most once, non-endpoints are
untouched, and `frontier_count` drops by at most one per endpoint. -/
theorem C2_ensure_edge_exists_idempotent (g : HoneyGraph) (a b : VertexKey) :
    (g.ensure_edge_exists a b).edgeExists a b = true ∧
    (g.ensure_edge_exists a b).ensure_edge_exists b a = g.ensure_edge_exists a b ∧
    (g.ensure_edge_exists a b).ensure_edge_exists a b = g.ensure_edge_exists a b ∧
    (∀ v, g.version v ≤ (g.ensure_edge_exists a b).version v ∧
      (g.ensure_edge_exists a b).version v ≤ g.version v + 1) ∧
    (∀ v, v ≠ a → v ≠ b → (g.ensure_edge_exists a b).version v = g.version v) ∧
    g.frontier_count - 2 ≤ (g.ensure_edge_exists a b).frontier_count ∧
    (g.ensure_edge_exists a b).frontier_count ≤ g.frontier_count := by
  refine ⟨ensure_exists_true g a b, ensure_second_call_noop g a b, ?_, ?_, ?_, ?_, ?_⟩
  · exact ensure_noop_of_exists _ a b (ensure_exists_true g a b)
  · exact fun v => ⟨ensure_version_mono g a b v, ensure_version_le g a b v⟩
  · exact fun v hva hvb => ensure_version_off g a b v hva hvb
  · exact (ensure_frontier_bounds g a b).1
  · exact (ensure_frontier_bounds g a b).2

/-! ## The frontier-count invariant (C1) -/

/-- Well-formedness of a layout, as `compute_hex_grid_layout` guarantees it:
vertex keys are unique and every static edge joins layout vertices. -/
def LayoutWF (layout : Layout) : Prop :=
  layout.vertices.Nodup ∧
    ∀ e ∈ layout.edges, e.1 ∈ layout.vertices ∧ e.2 ∈ layout.vertices

/-- The frontier consistency invariant: unique vertex keys, no open-incident
count outside the vertex set, and `frontier_count` equal to the number of
frontier vertices. -/
def FrontierInv (g : HoneyGraph) : Prop :=
  g.vertices.Nodup ∧ (∀ v, v ∉ g.vertices → g.open_incident v ≤ 0) ∧
    g.frontier_count = ((g.vertices.filter g.is_frontier_vertex).length : Int)

theorem foldl_addEdgeAdj_nil (es : List (VertexKey × VertexKey))
    (acc : VertexKey → List VertexKey) (v : VertexKey) (hacc : acc v = [])
    (h : ∀ e ∈ es, e.1 ≠ v ∧ e.2 ≠ v) : (es.foldl addEdgeAdj acc) v = [] := by
  induction es generalizing acc with
  | nil => exact hacc
  | cons e es ih =>
    simp only [List.foldl_cons]
    apply ih
    · have h1 := (h e (List.mem_cons_self e es)).1
      have h2 := (h e (List.mem_cons_self e es)).2
      have hv1 : ¬(v = e.1) := fun hv => h1 hv.symm
      have hv2 : ¬(v = e.2) := fun hv => h2 hv.symm
      simp [addEdgeAdj, hv1, hv2, hacc]
    · exact fun e2 he2 => h e2 (List.mem_cons_of_mem e he2)

/-- The invariant holds right after `HoneyGraph.__init__`. -/
theorem frontierInv_init (layout : Layout) (hwf : LayoutWF layout) :
    FrontierInv (HoneyGraph.init layout) := by
  refine ⟨hwf.1, ?_, rfl⟩
  intro v hv
  have hnil : initAdj layout.edges v = [] := by
    apply foldl_addEdgeAdj_nil _ _ _ rfl
    intro e he
    refine ⟨fun h1 => hv ?_, fun h2 => hv ?_⟩
    · exact h1 ▸ (hwf.2 e he).1
    · exact h2 ▸ (hwf.2 e he).2
  simp [HoneyGraph.init, HoneyGraph.open_incident, hnil]

theorem filter_length_pointwise (l : List VertexKey) (hnd : l.Nodup) (v : VertexKey)
    (hv : v ∈ l) (f f2 : VertexKey → Bool) (hff : ∀ w ∈ l, w ≠ v → f w = f2 w) :
    (l.filter f).length + (if f2 v then 1 else 0)
      = (l.filter f2).length + (if f v then 1 else 0) := by
  induction l with
  | nil => cases hv
  | cons a l ih =>
    rcases List.mem_cons.mp hv with rfl | hv2
    · have htail : l.filter f = l.filter f2 := by
        apply List.filter_congr
        intro w hw
        have hwv : w ≠ v := by
          intro hwv
          subst hwv
          exact (List.nodup_cons.mp hnd).1 hw
        exact hff w (List.mem_cons_of_mem v hw) hwv
      simp only [List.filter_cons, htail]
      cases hc : f v <;> cases hc2 : f2 v <;> simp
    · have ha : a ≠ v := by
        intro hav
        subst hav
        exact (List.nodup_cons.mp hnd).1 hv2
      have hfa : f a = f2 a := hff a (List.mem_cons_self a l) ha
      have hih := ih (List.nodup_cons.mp hnd).2 hv2
        (fun w hw hne => hff w (List.mem_cons_of_mem a hw) hne)
      simp only [List.filter_cons, hfa]
      cases hc : f2 a <;> (try simp) <;> (try omega)

/-- `_decrement_open_incident_edges` preserves the frontier invariant. -/
theorem frontierInv_dec (g : HoneyGraph) (v : VertexKey) (h : FrontierInv g) :
    FrontierInv (g.decrement_open_incident_edges v) := by
  obtain ⟨hnd, hout, hcount⟩ := h
  by_cases h0 : 0 < g.open_incident v
  · have hv : v ∈ g.vertices := by
      by_contra hv
      exact absurd (hout v hv) (by omega)
    refine ⟨by rw [dec_vertices]; exact hnd, ?_, ?_⟩
    · intro w hw
      rw [dec_vertices] at hw
      rw [dec_open]
      have := hout w hw
      split_ifs <;> omega
    · rw [dec_vertices, dec_frontier, hcount]
      have hpoint := filter_length_pointwise g.vertices hnd v hv
        g.is_frontier_vertex (g.decrement_open_incident_edges v).is_frontier_vertex
        (fun w _ hne => by simp [HoneyGraph.is_frontier_vertex, dec_open, hne])
      have hfv_old : g.is_frontier_vertex v = true := decide_eq_true h0
      have hfv_new : (g.decrement_open_incident_edges v).is_frontier_vertex v =
          decide (1 < g.open_incident v) := by
        unfold HoneyGraph.is_frontier_vertex
        rw [dec_open, if_pos (And.intro rfl h0)]
        exact decide_eq_decide.mpr (by omega)
      rw [hfv_old, hfv_new] at hpoint
      by_cases h1 : g.open_incident v = 1
      · rw [if_pos h1]
        have hd : decide (1 < g.open_incident v) = false := by
          rw [h1]
          simp
        rw [hd] at hpoint
        simp at hpoint
        omega
      · rw [if_neg h1]
        have hd : decide (1 < g.open_incident v) = true := decide_eq_true (by omega)
        rw [hd] at hpoint
        simp at hpoint
        omega
  · have hnoop : g.decrement_open_incident_edges v = g := by
      simp only [HoneyGraph.decrement_open_incident_edges]
      rw [if_pos]
      exact not_lt.mp h0
    rw [hnoop]
    exact ⟨hnd, hout, hcount⟩

/-- `ensure_edge_exists` preserves the frontier invariant. -/
theorem frontierInv_ensure (g : HoneyGraph) (a b : VertexKey) (h : FrontierInv g) :
    FrontierInv (g.ensure_edge_exists a b) := by
  rw [ensure_eq]
  split_ifs
  · exact h
  · exact frontierInv_dec _ b (frontierInv_dec _ a h)

/-- A sequence of `ensure_edge_exists` calls, folded over the graph state. -/
def applyEnsures (g : HoneyGraph) (ps : List (VertexKey × VertexKey)) : HoneyGraph :=
  ps.foldl (fun h p => h.ensure_edge_exists p.1 p.2) g

theorem frontierInv_applyEnsures (g : HoneyGraph) (ps : List (VertexKey × VertexKey))
    (h : FrontierInv g) : FrontierInv (applyEnsures g ps) := by
  induction ps generalizing g with
  | nil => exact h
  | cons p ps ih => exact ih _ (frontierInv_ensure g p.1 p.2 h)

/-- C1: after graph construction and after every sequence of
`ensure_edge_exists` calls: `is_frontier_vertex(v)` holds exactly when
`open_incident_edges(v) > 0`, the stored `frontier_count` equals the number
of vertices with positive open-incident count, and `frontier_is_empty()`
holds exactly when no vertex has a positive open-incident count. -/
theorem C1_frontier_consistency (layout : Layout) (hwf : LayoutWF layout)
    (ps : List (VertexKey × VertexKey)) :
    ∀ g, g = applyEnsures (HoneyGraph.init layout) ps →
      (∀ v, g.is_frontier_vertex v = true ↔ 0 < g.open_incident v) ∧
      g.frontier_count = ((g.vertices.filter g.is_frontier_vertex).length : Int) ∧
      (g.frontier_is_empty = true ↔ ∀ v ∈ g.vertices, ¬ 0 < g.open_incident v) := by
  rintro g rfl
  have hinv := frontierInv_applyEnsures _ ps (frontierInv_init layout hwf)
  refine ⟨?_, hinv.2.2, ?_⟩
  · intro v
    simp [HoneyGraph.is_frontier_vertex]
  · rw [HoneyGraph.frontier_is_empty, hinv.2.2]
    simp [HoneyGraph.is_frontier_vertex, List.filter_eq_nil_iff, List.length_eq_zero]

/-! ## Version lifecycle (C5) -/

/-- Trajectory invariant for versions: counters nonnegative, versions in
{0, 1}, and any vertex still missing an incident edge has version 0. -/
def VersionInv (g : HoneyGraph) : Prop :=
  ∀ v, 0 ≤ g.open_incident v ∧ 0 ≤ g.version v ∧ g.version v ≤ 1 ∧
    (0 < g.open_incident v → g.version v = 0)

theorem versionInv_init (layout : Layout) : VersionInv (HoneyGraph.init layout) := by
  intro v
  refine ⟨?_, ?_, ?_, ?_⟩ <;>
    simp [HoneyGraph.init, HoneyGraph.open_incident, HoneyGraph.version]

theorem versionInv_ensure (g : HoneyGraph) (a b : VertexKey) (h : VersionInv g) :
    VersionInv (g.ensure_edge_exists a b) := by
  intro v
  obtain ⟨ho, hv0, hv1, hfr⟩ := h v
  refine ⟨ensure_open_nonneg g a b v ho, ?_, ?_, ?_⟩
  · have := ensure_version_mono g a b v
    omega
  · rw [ensure_version_char]
    split_ifs with hc
    · have := hfr hc.1
      omega
    · omega
  · intro hpos
    rw [ensure_version_char]
    have hle := ensure_open_le g a b v
    split_ifs with hc
    · obtain ⟨hc1, hc2⟩ := hc
      omega
    · exact hfr (lt_of_lt_of_le hpos hle)

theorem versionInv_applyEnsures (g : HoneyGraph) (ps : List (VertexKey × VertexKey))
    (h : VersionInv g) : VersionInv (applyEnsures g ps) := by
  induction ps generalizing g with
  | nil => exact h
  | cons p ps ih => exact ih _ (versionInv_ensure g p.1 p.2 h)

/-- C5: on any graph reached from construction by `ensure_edge_exists` calls,
every vertex's `version` lies in {0, 1}, is monotone across the next call,
and increases (by exactly 1) at that call precisely when the call takes the
vertex's open-incident count from positive to zero — hence exactly once, at
the call where the counter first reaches 0, and never again. -/
theorem C5_version_bumped_exactly_once (layout : Layout) (ps : List (VertexKey × VertexKey))
    (a b : VertexKey) :
    ∀ g g2, g = applyEnsures (HoneyGraph.init layout) ps → g2 = g.ensure_edge_exists a b →
      ∀ v, 0 ≤ g.version v ∧ g.version v ≤ 1 ∧ 0 ≤ g2.version v ∧ g2.version v ≤ 1 ∧
        g.version v ≤ g2.version v ∧
        (g2.version v = g.version v + 1 ↔
          (0 < g.open_incident v ∧ g2.open_incident v = 0)) ∧
        (¬(0 < g.open_incident v ∧ g2.open_incident v = 0) →
          g2.version v = g.version v) := by
  rintro g g2 rfl rfl v
  have hinv := versionInv_applyEnsures _ ps (versionInv_init layout)
  obtain ⟨ho, h0, h1, hfr⟩ := hinv v
  have hinv2 := versionInv_ensure _ a b hinv
  obtain ⟨ho2, h02, h12, hfr2⟩ := hinv2 v
  have hchar := ensure_version_char (applyEnsures (HoneyGraph.init layout) ps) a b v
  refine ⟨h0, h1, h02, h12, ensure_version_mono _ a b v, ?_, ?_⟩
  · constructor
    · intro heq
      by_contra hnc
      rw [hchar, if_neg hnc] at heq
      omega
    · intro hc
      rw [hchar, if_pos hc]
  · intro hnc
    rw [hchar, if_neg hnc]

/-! ## The growth move decision (C3) -/

theorem growEffect_traffic (g : HoneyGraph) (c nv : VertexKey) :
    (growEffect g c nv).traffic c nv = g.traffic c nv + 1 := by
  unfold growEffect HoneyGraph.traffic
  rw [bumpVisit_edge_state, bumpTraffic_edge_state, if_pos rfl, ensure_edge_state, if_pos rfl]

theorem growEffect_visit (g : HoneyGraph) (c nv : VertexKey) :
    (growEffect g c nv).visit_count nv = g.visit_count nv + 1 := by
  unfold growEffect
  have h1 : ∀ (h : HoneyGraph) v, (bumpVisit h v).visit_count v = h.visit_count v + 1 := by
    intro h v
    unfold HoneyGraph.visit_count
    rw [bumpVisit_vertex_state, if_pos rfl]
  rw [h1]
  have h2 : (bumpTraffic (g.ensure_edge_exists c nv) c nv).visit_count nv =
      (g.ensure_edge_exists c nv).visit_count nv := rfl
  rw [h2]
  have h3 : (g.ensure_edge_exists c nv).visit_count nv = g.visit_count nv := by
    rw [ensure_eq]
    split_ifs
    · rfl
    · rw [dec_visit, dec_visit]
      rfl
  rw [h3]

theorem growEffect_exists (g : HoneyGraph) (c nv : VertexKey) :
    (growEffect g c nv).edgeExists c nv = true := by
  unfold growEffect HoneyGraph.edgeExists
  rw [bumpVisit_edge_state, bumpTraffic_edge_state, if_pos rfl]
  show ((g.ensure_edge_exists c nv).edge_state (edge_key c nv)).exists_ = true
  exact ensure_exists_true g c nv

/-- Everything `_step_grow` considers is a forward candidate: a neighbor of
`curr` other than `prev`. -/
theorem candList_mem (prev curr : VertexKey) (layout : Layout) (g : HoneyGraph) :
    ∀ c ∈ candList prev curr layout g, c ∈ g.neighbors curr ∧ c ≠ prev := by
  intro c hc
  have hsub : c ∈ (g.neighbors curr).filter (fun ns => decide (ns ≠ prev)) := by
    unfold candList forward_options_left_right at hc
    rcases hfil : (g.neighbors curr).filter (fun ns => decide (ns ≠ prev)) with _ | ⟨c0, rest0⟩
    · rw [hfil] at hc
      simp at hc
    · rcases rest0 with _ | ⟨c1, rest1⟩
      · rw [hfil] at hc
        simp at hc
        subst hc
        simp [hfil]
      · rw [hfil] at hc
        simp at hc
        split_ifs at hc <;> simp only [Option.some.injEq] at hc <;>
          rcases hc with rfl | rfl <;> simp
  have hm := List.mem_filter.mp hsub
  exact ⟨hm.1, by simpa using hm.2⟩

/-- C3: the growth move decision table of `_step_grow`/`_choose_next`: with 0
candidates it is blocked without mutation; with exactly 1 it takes it; with 2
it prefers a sole new edge exactly when the next RNG draw is below the clamped
prefer-new probability, picks between two new edges by a draw against 1/2, and
is blocked without mutation when neither is new; every pick ensures the chosen
edge exists and bumps its traffic and the new vertex's visit count by one, and
advances `prev ← curr, curr ← next`; and candidates are always neighbors of
`curr` other than `prev`. -/
theorem C3_growth_move_decision (p : ℚ) (prev curr : VertexKey) (agent : Agent)
    (layout : Layout) (g : HoneyGraph) (rng : RNG) :
    (∀ c ∈ candList prev curr layout g, c ∈ g.neighbors curr ∧ c ≠ prev) ∧
    (candList prev curr layout g = [] →
      step_grow (prefer_new_probability p) prev curr agent layout g rng =
        (false, agent, g, rng)) ∧
    (∀ c, candList prev curr layout g = [c] →
      step_grow (prefer_new_probability p) prev curr agent layout g rng =
        (true, { agent with prev := some curr, curr := some c }, growEffect g curr c, rng)) ∧
    (∀ c0 c1, candList prev curr layout g = [c0, c1] →
      (g.edgeExists curr c0 = false → g.edgeExists curr c1 = true →
        step_grow (prefer_new_probability p) prev curr agent layout g rng =
          (true,
            { agent with
              prev := some curr
              curr := some (if (rng.random).1 < prefer_new_probability p then c0 else c1) },
            growEffect g curr (if (rng.random).1 < prefer_new_probability p then c0 else c1),
            (rng.random).2)) ∧
      (g.edgeExists curr c1 = false → g.edgeExists curr c0 = true →
        step_grow (prefer_new_probability p) prev curr agent layout g rng =
          (true,
            { agent with
              prev := some curr
              curr := some (if (rng.random).1 < prefer_new_probability p then c1 else c0) },
            growEffect g curr (if (rng.random).1 < prefer_new_probability p then c1 else c0),
            (rng.random).2)) ∧
      (g.edgeExists curr c0 = false → g.edgeExists curr c1 = false →
        step_grow (prefer_new_probability p) prev curr agent layout g rng =
          (true,
            { agent with
              prev := some curr
              curr := some (if (rng.random).1 < (1 : ℚ) / 2 then c0 else c1) },
            growEffect g curr (if (rng.random).1 < (1 : ℚ) / 2 then c0 else c1),
            (rng.random).2)) ∧
      (g.edgeExists curr c0 = true → g.edgeExists curr c1 = true →
        step_grow (prefer_new_probability p) prev curr agent layout g rng =
          (false, agent, g, rng))) ∧
    (∀ c, (growEffect g curr c).traffic curr c = g.traffic curr c + 1 ∧
      (growEffect g curr c).visit_count c = g.visit_count c + 1 ∧
      (growEffect g curr c).edgeExists curr c = true) := by
  refine ⟨candList_mem prev curr layout g, ?_, ?_, ?_, ?_⟩
  · intro h
    simp [step_grow, h]
  · intro c h
    simp [step_grow, h, choose_next]
  · intro c0 c1 h
    refine ⟨?_, ?_, ?_, ?_⟩ <;> intro he0 he1 <;>
      simp [step_grow, h, choose_next, he0, he1, RNG.random]
  · intro c
    exact ⟨growEffect_traffic g curr c, growEffect_visit g curr c, growEffect_exists g curr c⟩

/-! ## Same-tick fall-through on blocked growth (C6) -/

/-- When `_choose_next` returns no decision it has consumed no randomness. -/
theorem choose_next_none_rng (pc : ℚ) (curr : VertexKey) (cands : List VertexKey)
    (g : HoneyGraph) (rng : RNG)
    (h : (choose_next pc curr cands g rng).1 = none) :
    choose_next pc curr cands g rng = (none, rng) := by
  unfold choose_next at *
  rcases cands with _ | ⟨c0, _ | ⟨c1, rest⟩⟩
  · rfl
  · simp at h
  · simp only [RNG.random] at *
    split_ifs at * <;> simp_all

/-- A blocked `_step_grow` mutates nothing: not the agent, the graph, or the
RNG stream. -/
theorem step_grow_blocked (pc : ℚ) (prev curr : VertexKey) (agent : Agent)
    (layout : Layout) (g : HoneyGraph) (rng : RNG)
    (h : (step_grow pc prev curr agent layout g rng).1 = false) :
    step_grow pc prev curr agent layout g rng = (false, agent, g, rng) := by
  unfold step_grow at *
  by_cases hemp : (candList prev curr layout g).isEmpty
  · simp [hemp]
  · simp only [hemp, if_false, Bool.false_eq_true] at *
    rcases hcn : choose_next pc curr (candList prev curr layout g) g rng with ⟨o, rng1⟩
    rcases o with _ | nv
    · have h2 := choose_next_none_rng pc curr (candList prev curr layout g) g rng (by rw [hcn])
      rw [hcn] at h2
      simp only [Prod.mk.injEq] at h2
      simp [h2.2]
    · rw [hcn] at h
      simp at h

/-- C6: an initialized agent in GROW mode whose growth move is blocked, while
the frontier is non-empty, switches to TRAVEL with a cleared travel plan and
performs one travel step within the same `step` invocation — the whole call
equals the travel step applied to the mode-switched, plan-cleared agent. -/
theorem C6_blocked_growth_falls_through (p : ℚ) (fuel : Nat) (agent : Agent)
    (layout : Layout) (g : HoneyGraph) (rng : RNG) (prev curr : VertexKey)
    (hfe : g.frontier_is_empty = false)
    (hprev : agent.prev = some prev) (hcurr : agent.curr = some curr)
    (hmode : agent.mode = AgentMode.GROW)
    (hblocked : (step_grow (prefer_new_probability p) prev curr agent layout g rng).1 = false) :
    step_grow (prefer_new_probability p) prev curr agent layout g rng =
      (false, agent, g, rng) ∧
    enter_travel_mode agent =
      { agent with
        mode := AgentMode.TRAVEL
        travel_target := none
        travel_target_version := -1
        travel_path := [] } ∧
    step (prefer_new_probability p) fuel agent layout g rng =
      some ((step_travel curr (enter_travel_mode agent) g).1,
        (step_travel curr (enter_travel_mode agent) g).2, rng) := by
  have hsg := step_grow_blocked _ prev curr agent layout g rng hblocked
  refine ⟨hsg, rfl, ?_⟩
  simp [step, hfe, hprev, hcurr, hmode, hsg]

/-! ## Paths in the existing-edge subgraph -/

/-- `p` lists the successive vertices of a walk starting at `u` whose hops all
use existing edges (the subgraph `iter_existing_neighbors` exposes). -/
def isPathFrom (g : HoneyGraph) : VertexKey → List VertexKey → Prop
  | _, [] => True
  | u, v :: rest => v ∈ g.iter_existing_neighbors u ∧ isPathFrom g v rest

def isPathFromDec (g : HoneyGraph) :
    (p : List VertexKey) → (u : VertexKey) → Decidable (isPathFrom g u p)
  | [], _ => Decidable.isTrue trivial
  | v :: rest, u =>
    haveI h2 : Decidable (isPathFrom g v rest) := isPathFromDec g rest v
    inferInstanceAs (Decidable (v ∈ g.iter_existing_neighbors u ∧ isPathFrom g v rest))

instance (g : HoneyGraph) (u : VertexKey) (p : List VertexKey) :
    Decidable (isPathFrom g u p) := isPathFromDec g p u

/-- The vertex a walk ends on (`u` itself for the empty walk). -/
def pathEnd (u : VertexKey) : List VertexKey → VertexKey
  | [] => u
  | v :: rest => pathEnd v rest

theorem pathEnd_nil (u : VertexKey) : pathEnd u [] = u := rfl

theorem pathEnd_cons (u v : VertexKey) (p : List VertexKey) :
    pathEnd u (v :: p) = pathEnd v p := rfl

theorem pathEnd_concat (u w : VertexKey) (p : List VertexKey) :
    pathEnd u (p ++ [w]) = w := by
  induction p generalizing u with
  | nil => rfl
  | cons v rest ih => rw [List.cons_append, pathEnd_cons, ih]

theorem isPathFrom_snoc (g : HoneyGraph) (w : VertexKey) :
    ∀ (p : List VertexKey) (u : VertexKey),
      isPathFrom g u (p ++ [w]) ↔
        isPathFrom g u p ∧ w ∈ g.iter_existing_neighbors (pathEnd u p) := by
  intro p
  induction p with
  | nil =>
    intro u
    simp [isPathFrom, pathEnd_nil]
  | cons v rest ih =>
    intro u
    rw [List.cons_append]
    show (v ∈ g.iter_existing_neighbors u ∧ isPathFrom g v (rest ++ [w])) ↔ _
    rw [ih v, pathEnd_cons]
    show _ ↔ ((v ∈ g.iter_existing_neighbors u ∧ isPathFrom g v rest) ∧ _)
    rw [and_assoc]

/-- Membership in `iter_existing_neighbors` unpacked. -/
theorem mem_iter_existing (g : HoneyGraph) (u v : VertexKey) :
    v ∈ g.iter_existing_neighbors u ↔ v ∈ g.adjacency u ∧ g.edgeExists u v = true := by
  unfold HoneyGraph.iter_existing_neighbors
  rw [List.mem_filter]

/-- Well-formedness the layout construction guarantees for the graph:
unique vertex keys and adjacency closed over the vertex set. -/
def GraphWF (g : HoneyGraph) : Prop :=
  g.vertices.Nodup ∧ ∀ u ∈ g.vertices, ∀ v ∈ g.adjacency u, v ∈ g.vertices

instance (g : HoneyGraph) : Decidable (GraphWF g) := by
  unfold GraphWF
  infer_instance

theorem nodup_subset_length (l1 l2 : List VertexKey) (hnd : l1.Nodup)
    (hsub : ∀ x ∈ l1, x ∈ l2) : l1.length ≤ l2.length := by
  have h1 : l1.toFinset.card = l1.length := List.toFinset_card_of_nodup hnd
  have h2 : l1.toFinset ⊆ l2.toFinset := by
    intro x hx
    rw [List.mem_toFinset] at hx ⊢
    exact hsub x hx
  have h3 := Finset.card_le_card h2
  have h4 := l2.toFinset_card_le
  omega

/-! ## The BFS loop invariant (C4) -/

/-- The parent map reconstructs, at every sufficient fuel, a fixed walk `p`
from `start` to `v` of length `n` that avoids `start` and repeats nothing. -/
def ChainsTo (g : HoneyGraph) (parent : VertexKey → Option VertexKey)
    (start v : VertexKey) (p : List VertexKey) (n : Nat) : Prop :=
  (∀ fuel, p.length ≤ fuel → reconstructAux parent start fuel v = some p) ∧
  isPathFrom g start p ∧ pathEnd start p = v ∧ start ∉ p ∧ p.Nodup ∧ p.length = n

/-- Invariant of the `while open_queue` loop of `_bfs_to_nearest_frontier`,
with a ghost level map `lvl` (the BFS distance of every visited vertex). -/
structure BfsInv (g : HoneyGraph) (start : VertexKey) (visited : List VertexKey)
    (parent : VertexKey → Option VertexKey) (queue : List VertexKey)
    (lvl : VertexKey → Nat) : Prop where
  vis_nodup : visited.Nodup
  vis_sub : ∀ v ∈ visited, v ∈ g.vertices
  start_vis : start ∈ visited
  q_sub : ∀ v ∈ queue, v ∈ visited
  q_nodup : queue.Nodup
  nonfrontier : ∀ v ∈ visited, g.is_frontier_vertex v = false
  chains : ∀ v ∈ visited, ∃ p, ChainsTo g parent start v p (lvl v) ∧ ∀ x ∈ p, x ∈ visited
  minim : ∀ v ∈ visited, ∀ q, isPathFrom g start q → pathEnd start q = v → lvl v ≤ q.length
  closed : ∀ v ∈ visited, v ∉ queue → ∀ nb ∈ g.iter_existing_neighbors v, nb ∈ visited
  sorted : queue.Pairwise (fun x y => lvl x ≤ lvl y)
  span : ∀ x ∈ queue, ∀ y ∈ queue, lvl y ≤ lvl x + 1

/-- The frontier-crossing bound: while every not-fully-processed vertex sits
at level ≥ `d`, every walk ending outside the visited set has length at least
`d + 1`. -/
theorem bfs_crossing (g : HoneyGraph) (start : VertexKey) (visited opens : List VertexKey)
    (lvl : VertexKey → Nat) (d : Nat) (hstart : start ∈ visited)
    (hmin : ∀ v ∈ visited, ∀ q, isPathFrom g start q → pathEnd start q = v → lvl v ≤ q.length)
    (hclosed : ∀ v ∈ visited, v ∉ opens → ∀ nb ∈ g.iter_existing_neighbors v, nb ∈ visited)
    (hlev : ∀ x ∈ opens, d ≤ lvl x) :
    ∀ q, isPathFrom g start q → pathEnd start q ∉ visited → d + 1 ≤ q.length := by
  intro q
  induction q using List.reverseRecOn with
  | nil =>
    intro _ hw
    exact absurd hstart hw
  | append_singleton q1 x ih =>
    intro hp hw
    rw [isPathFrom_snoc] at hp
    obtain ⟨hp1, hadj⟩ := hp
    rw [pathEnd_concat] at hw
    by_cases hm : pathEnd start q1 ∈ visited
    · by_cases hmo : pathEnd start q1 ∈ opens
      · have h1 : d ≤ lvl (pathEnd start q1) := hlev _ hmo
        have h2 : lvl (pathEnd start q1) ≤ q1.length := hmin _ hm q1 hp1 rfl
        rw [List.length_append]
        simp only [List.length_singleton]
        omega
      · exact absurd (hclosed _ hm hmo x hadj) hw
    · have := ih hp1 hm
      rw [List.length_append]
      simp only [List.length_singleton]
      omega

/-- With an exhausted queue the visited set is closed, so it absorbs every
walk from `start`. -/
theorem closed_reach (g : HoneyGraph) (start : VertexKey) (visited : List VertexKey)
    (hstart : start ∈ visited)
    (hclosed : ∀ v ∈ visited, ∀ nb ∈ g.iter_existing_neighbors v, nb ∈ visited) :
    ∀ q, isPathFrom g start q → pathEnd start q ∈ visited := by
  intro q
  induction q using List.reverseRecOn with
  | nil => intro _; exact hstart
  | append_singleton q1 x ih =>
    intro hp
    rw [isPathFrom_snoc] at hp
    rw [pathEnd_concat]
    exact hclosed _ (ih hp.1) x hp.2

/-- `_reconstruct_path` only consults the parent map along the produced path,
so maps that agree there reconstruct the same path. -/
theorem reconstructAux_congr (parent parent1 : VertexKey → Option VertexKey)
    (start : VertexKey) :
    ∀ (fuel : Nat) (v : VertexKey) (p : List VertexKey),
      reconstructAux parent start fuel v = some p →
      (∀ x ∈ p, parent1 x = parent x) →
      reconstructAux parent1 start fuel v = some p := by
  intro fuel
  induction fuel with
  | zero =>
    intro v p h hagree
    unfold reconstructAux at h ⊢
    split_ifs at h ⊢ <;> simp_all
  | succ f ih =>
    intro v p h hagree
    by_cases hv : v = start
    · unfold reconstructAux at h ⊢
      rw [if_pos hv] at h ⊢
      exact h
    · unfold reconstructAux at h ⊢
      rw [if_neg hv] at h ⊢
      rcases hp : parent v with _ | pu
      · rw [hp] at h
        simp at h
      · rw [hp] at h
        dsimp only at h
        rcases hrec : reconstructAux parent start f pu with _ | l
        · rw [hrec] at h
          simp at h
        · rw [hrec] at h
          simp only [Option.map_some'] at h
          have hpl : l ++ [v] = p := by simpa using h
          have hmem : v ∈ p := by
            rw [← hpl]
            simp
          rw [hagree v hmem, hp]
          dsimp only
          have hl : ∀ x ∈ l, parent1 x = parent x := by
            intro x hx
            apply hagree
            rw [← hpl]
            simp [hx]
          rw [ih pu l hrec hl]
          simpa using h

/-- Extending a stored BFS chain by one freshly discovered neighbor. -/
theorem chain_extend (g : HoneyGraph) (start u nb : VertexKey) (visited : List VertexKey)
    (parent : VertexKey → Option VertexKey) (p_u : List VertexKey) (n : Nat)
    (hch : ChainsTo g parent start u p_u n) (hsub : ∀ x ∈ p_u, x ∈ visited)
    (hnb_vis : nb ∉ visited) (hstart : start ∈ visited)
    (hadj : nb ∈ g.iter_existing_neighbors u) :
    ChainsTo g (fun w => if w = nb then some u else parent w) start nb
      (p_u ++ [nb]) (n + 1) := by
  obtain ⟨hrec, hpath, hend, hstartn, hnd, hlen⟩ := hch
  have hnbs : nb ≠ start := fun h => hnb_vis (h ▸ hstart)
  refine ⟨?_, ?_, pathEnd_concat _ _ _, ?_, ?_, by simp [hlen]⟩
  · intro fuel hfuel
    rcases fuel with _ | f
    · simp at hfuel
    · have hagree : ∀ x ∈ p_u, (fun w => if w = nb then some u else parent w) x = parent x := by
        intro x hx
        have hx2 : x ≠ nb := fun h => hnb_vis (h ▸ hsub x hx)
        simp [hx2]
      have hre : reconstructAux (fun w => if w = nb then some u else parent w) start f u =
          some p_u := by
        apply reconstructAux_congr parent _ start f u p_u (hrec f ?_) hagree
        simp only [List.length_append, List.length_singleton] at hfuel
        omega
      unfold reconstructAux
      rw [if_neg hnbs]
      simp [hre]
  · rw [isPathFrom_snoc]
    exact ⟨hpath, hend ▸ hadj⟩
  · simp only [List.mem_append, List.mem_singleton]
    rintro (h | h)
    · exact hstartn h
    · exact hnbs h.symm
  · rw [← List.concat_eq_append]
    exact hnd.concat (fun h => hnb_vis (hsub nb h))

/-- Transporting a stored chain to a parent map that agrees along it. -/
theorem ChainsTo_congr (g : HoneyGraph) (start v : VertexKey) (p : List VertexKey) (n : Nat)
    (parent parent1 : VertexKey → Option VertexKey) (hch : ChainsTo g parent start v p n)
    (hagree : ∀ x ∈ p, parent1 x = parent x) : ChainsTo g parent1 start v p n := by
  obtain ⟨hrec, h2, h3, h4, h5, h6⟩ := hch
  exact ⟨fun fuel hf => reconstructAux_congr parent parent1 start fuel v p (hrec fuel hf) hagree,
    h2, h3, h4, h5, h6⟩

/-- Invariant holding midway through the `for neighbor in ...` loop while
vertex `u` is being expanded: the ambient BFS invariant, plus `u` popped from
the queue with the still-unprocessed suffix `nbs` of its neighbor list. -/
structure ProcInv (g : HoneyGraph) (start u : VertexKey) (nbs visited : List VertexKey)
    (parent : VertexKey → Option VertexKey) (queue : List VertexKey)
    (lvl : VertexKey → Nat) : Prop where
  vis_nodup : visited.Nodup
  vis_sub : ∀ v ∈ visited, v ∈ g.vertices
  start_vis : start ∈ visited
  q_sub : ∀ v ∈ queue, v ∈ visited
  q_nodup : queue.Nodup
  nonfrontier : ∀ v ∈ visited, g.is_frontier_vertex v = false
  chains : ∀ v ∈ visited, ∃ p, ChainsTo g parent start v p (lvl v) ∧ ∀ x ∈ p, x ∈ visited
  minim : ∀ v ∈ visited, ∀ q, isPathFrom g start q → pathEnd start q = v → lvl v ≤ q.length
  u_vis : u ∈ visited
  u_notq : u ∉ queue
  nbs_sub : ∀ x ∈ nbs, x ∈ g.iter_existing_neighbors u
  closed_exc : ∀ v ∈ visited, v ∉ queue → v ≠ u → ∀ nb ∈ g.iter_existing_neighbors v,
    nb ∈ visited
  u_prefix : ∀ nb ∈ g.iter_existing_neighbors u, nb ∉ nbs → nb ∈ visited
  q_lo : ∀ x ∈ queue, lvl u ≤ lvl x
  q_hi : ∀ x ∈ queue, lvl x ≤ lvl u + 1
  q_sorted : queue.Pairwise (fun x y => lvl x ≤ lvl y)

/-- Specification of the inner neighbor loop: an early return yields a
frontier vertex with a shortest reconstructible chain one longer than `u`'s
level; falling through re-establishes the queue-loop invariant with an
unchanged visited-plus-queue cardinality balance. -/
theorem bfsProcess_spec (g : HoneyGraph) (start u : VertexKey) (hwf : GraphWF g) :
    ∀ (nbs visited : List VertexKey) (parent : VertexKey → Option VertexKey)
      (queue : List VertexKey) (lvl : VertexKey → Nat),
      ProcInv g start u nbs visited parent queue lvl →
      (match bfsProcess g u nbs visited parent queue with
       | Sum.inl (t, parent1) =>
           g.is_frontier_vertex t = true ∧
           ∃ p, ChainsTo g parent1 start t p (lvl u + 1) ∧
             p.length ≤ g.vertices.length + 1 ∧
             (∀ q, isPathFrom g start q → pathEnd start q = t → p.length ≤ q.length)
       | Sum.inr (visited1, parent1, queue1) =>
           ∃ lvl1 : VertexKey → Nat,
             BfsInv g start visited1 parent1 queue1 lvl1 ∧
             queue1.length + visited.length = queue.length + visited1.length ∧
             (∀ v ∈ visited, v ∈ visited1)) := by
  intro nbs
  induction nbs with
  | nil =>
    intro visited parent queue lvl hinv
    simp only [bfsProcess]
    have hI : BfsInv g start visited parent queue lvl :=
      { vis_nodup := hinv.vis_nodup
        vis_sub := hinv.vis_sub
        start_vis := hinv.start_vis
        q_sub := hinv.q_sub
        q_nodup := hinv.q_nodup
        nonfrontier := hinv.nonfrontier
        chains := hinv.chains
        minim := hinv.minim
        closed := by
          intro v hv hvq nb hnb
          by_cases hvu : v = u
          · subst hvu
            exact hinv.u_prefix nb hnb (List.not_mem_nil nb)
          · exact hinv.closed_exc v hv hvq hvu nb hnb
        sorted := hinv.q_sorted
        span := by
          intro x hx y hy
          have h1 := hinv.q_hi y hy
          have h2 := hinv.q_lo x hx
          omega }
    exact Exists.intro lvl (And.intro hI (And.intro trivial (fun v hv => hv)))
  | cons nb rest ih =>
    intro visited parent queue lvl hinv
    by_cases hmem : nb ∈ visited
    · simp only [bfsProcess]
      rw [if_pos hmem]
      apply ih
      exact
        { hinv with
          nbs_sub := fun x hx => hinv.nbs_sub x (List.mem_cons_of_mem nb hx)
          u_prefix := by
            intro nb2 hnb2 hnot
            by_cases heq : nb2 = nb
            · exact heq ▸ hmem
            · refine hinv.u_prefix nb2 hnb2 ?_
              intro hin
              rcases List.mem_cons.mp hin with h | h
              · exact heq h
              · exact hnot h }
    · have hnb_ex : nb ∈ g.iter_existing_neighbors u :=
        hinv.nbs_sub nb (List.mem_cons_self nb rest)
      have hnb_vtx : nb ∈ g.vertices := by
        have hadj := ((mem_iter_existing g u nb).mp hnb_ex).1
        exact hwf.2 u (hinv.vis_sub u hinv.u_vis) nb hadj
      have hunb : u ≠ nb := fun h => hmem (h ▸ hinv.u_vis)
      obtain ⟨p_u, hch_u, hsub_u⟩ := hinv.chains u hinv.u_vis
      have hchain_nb := chain_extend g start u nb visited parent p_u (lvl u) hch_u hsub_u
        hmem hinv.start_vis hnb_ex
      have hlen_pu : p_u.length ≤ g.vertices.length := by
        refine nodup_subset_length p_u g.vertices hch_u.2.2.2.2.1 ?_
        exact fun x hx => hinv.vis_sub x (hsub_u x hx)
      have hlvlu : p_u.length = lvl u := hch_u.2.2.2.2.2
      have hcross : ∀ q, isPathFrom g start q → pathEnd start q ∉ visited →
          lvl u + 1 ≤ q.length := by
        apply bfs_crossing g start visited (u :: queue) lvl (lvl u) hinv.start_vis hinv.minim
        · intro v hv hvo nb2 hnb2
          have hvu : v ≠ u := fun h => hvo (h ▸ List.mem_cons_self u queue)
          have hvq : v ∉ queue := fun h => hvo (List.mem_cons_of_mem u h)
          exact hinv.closed_exc v hv hvq hvu nb2 hnb2
        · intro x hx
          rcases List.mem_cons.mp hx with rfl | hx2
          · exact le_refl _
          · exact hinv.q_lo x hx2
      by_cases hfront : g.is_frontier_vertex nb = true
      · simp only [bfsProcess]
        rw [if_neg hmem, if_pos hfront]
        refine ⟨hfront, p_u ++ [nb], hchain_nb, ?_, ?_⟩
        · simp only [List.length_append, List.length_singleton]
          omega
        · intro q hq hqe
          have hbound := hcross q hq (by rw [hqe]; exact hmem)
          simp only [List.length_append, List.length_singleton]
          omega
      · have hfront2 : g.is_frontier_vertex nb = false := by
          simpa using hfront
        simp only [bfsProcess]
        rw [if_neg hmem, if_neg hfront]
        have hnewInv : ProcInv g start u rest (nb :: visited)
            (fun w => if w = nb then some u else parent w) (queue ++ [nb])
            (fun w => if w = nb then lvl u + 1 else lvl w) := by
          refine
            { vis_nodup := List.nodup_cons.mpr ⟨hmem, hinv.vis_nodup⟩
              vis_sub := ?_
              start_vis := List.mem_cons_of_mem nb hinv.start_vis
              q_sub := ?_
              q_nodup := ?_
              nonfrontier := ?_
              chains := ?_
              minim := ?_
              u_vis := List.mem_cons_of_mem nb hinv.u_vis
              u_notq := ?_
              nbs_sub := fun x hx => hinv.nbs_sub x (List.mem_cons_of_mem nb hx)
              closed_exc := ?_
              u_prefix := ?_
              q_lo := ?_
              q_hi := ?_
              q_sorted := ?_ }
          · intro v hv
            rcases List.mem_cons.mp hv with rfl | hv2
            · exact hnb_vtx
            · exact hinv.vis_sub v hv2
          · intro v hv
            rcases List.mem_append.mp hv with hv2 | hv2
            · exact List.mem_cons_of_mem nb (hinv.q_sub v hv2)
            · rw [List.mem_singleton.mp hv2]
              exact List.mem_cons_self nb visited
          · refine hinv.q_nodup.append (List.nodup_singleton nb) ?_
            intro x hx hx2
            rw [List.mem_singleton.mp hx2] at hx
            exact hmem (hinv.q_sub nb hx)
          · intro v hv
            rcases List.mem_cons.mp hv with rfl | hv2
            · exact hfront2
            · exact hinv.nonfrontier v hv2
          · intro v hv
            rcases List.mem_cons.mp hv with rfl | hv2
            · refine ⟨p_u ++ [v], ?_, ?_⟩
              · rw [if_pos rfl]
                exact hchain_nb
              · intro x hx
                rcases List.mem_append.mp hx with hx2 | hx2
                · exact List.mem_cons_of_mem v (hsub_u x hx2)
                · rw [List.mem_singleton.mp hx2]
                  exact List.mem_cons_self v visited
            · obtain ⟨p, hp, hpsub⟩ := hinv.chains v hv2
              have hvnb : v ≠ nb := fun h => hmem (h ▸ hv2)
              refine ⟨p, ?_, fun x hx => List.mem_cons_of_mem nb (hpsub x hx)⟩
              rw [if_neg hvnb]
              refine ChainsTo_congr g start v p (lvl v) parent _ hp ?_
              intro x hx
              have hxnb : x ≠ nb := fun h => hmem (h ▸ hpsub x hx)
              exact if_neg hxnb
          · intro v hv q hq hqe
            rcases List.mem_cons.mp hv with rfl | hv2
            · rw [if_pos rfl]
              exact hcross q hq (by rw [hqe]; exact hmem)
            · have hvnb : v ≠ nb := fun h => hmem (h ▸ hv2)
              rw [if_neg hvnb]
              exact hinv.minim v hv2 q hq hqe
          · intro hu
            rcases List.mem_append.mp hu with hu2 | hu2
            · exact hinv.u_notq hu2
            · exact hunb (List.mem_singleton.mp hu2)
          · intro v hv hvq hvu nb2 hnb2
            have hvnb : v ≠ nb := by
              intro h
              subst h
              exact hvq (List.mem_append.mpr (Or.inr (List.mem_singleton_self v)))
            rcases List.mem_cons.mp hv with rfl | hv2
            · exact absurd rfl hvnb
            · have hvq2 : v ∉ queue := fun h => hvq (List.mem_append.mpr (Or.inl h))
              exact List.mem_cons_of_mem nb (hinv.closed_exc v hv2 hvq2 hvu nb2 hnb2)
          · intro nb2 hnb2 hnot
            by_cases heq : nb2 = nb
            · rw [heq]
              exact List.mem_cons_self nb visited
            · refine List.mem_cons_of_mem nb (hinv.u_prefix nb2 hnb2 ?_)
              intro hin
              rcases List.mem_cons.mp hin with h | h
              · exact heq h
              · exact hnot h
          · intro x hx
            rw [if_neg hunb]
            rcases List.mem_append.mp hx with hx2 | hx2
            · have hxnb : x ≠ nb := fun h => hmem (h ▸ hinv.q_sub x hx2)
              rw [if_neg hxnb]
              exact hinv.q_lo x hx2
            · rw [List.mem_singleton.mp hx2, if_pos rfl]
              omega
          · intro x hx
            rw [if_neg hunb]
            rcases List.mem_append.mp hx with hx2 | hx2
            · have hxnb : x ≠ nb := fun h => hmem (h ▸ hinv.q_sub x hx2)
              rw [if_neg hxnb]
              have := hinv.q_hi x hx2
              omega
            · rw [List.mem_singleton.mp hx2, if_pos rfl]
          · rw [List.pairwise_append]
            refine ⟨?_, List.pairwise_singleton _ nb, ?_⟩
            · refine hinv.q_sorted.imp_of_mem ?_
              intro x y hx hy hxy
              have hxnb : x ≠ nb := fun h => hmem (h ▸ hinv.q_sub x hx)
              have hynb : y ≠ nb := fun h => hmem (h ▸ hinv.q_sub y hy)
              simpa [hxnb, hynb] using hxy
            · intro x hx y hy
              rw [List.mem_singleton.mp hy, if_pos rfl]
              have hxnb : x ≠ nb := fun h => hmem (h ▸ hinv.q_sub x hx)
              rw [if_neg hxnb]
              have h1 := hinv.q_hi x hx
              omega
        have hres := ih (nb :: visited) (fun w => if w = nb then some u else parent w)
          (queue ++ [nb]) (fun w => if w = nb then lvl u + 1 else lvl w) hnewInv
        rcases hX : bfsProcess g u rest (nb :: visited)
            (fun w => if w = nb then some u else parent w) (queue ++ [nb])
          with ⟨t, parent2⟩ | ⟨vis2, parent2, q2⟩
        · rw [hX] at hres
          dsimp only at hres ⊢
          rw [if_neg hunb] at hres
          exact hres
        · rw [hX] at hres
          obtain ⟨lvl2, hI, hcount, hmono⟩ := hres
          refine ⟨lvl2, hI, ?_, ?_⟩
          · simp at hcount ⊢
            omega
          · exact fun v hv => hmono v (List.mem_cons_of_mem nb hv)

/-- Specification of the whole `while open_queue` loop: with the invariant and
enough fuel, a `some` result is a frontier vertex whose parent chain
reconstructs to a shortest existing-edge walk from `start`, and a `none`
result means no walk from `start` reaches a frontier vertex. -/
theorem bfsLoop_spec (g : HoneyGraph) (start : VertexKey) (hwf : GraphWF g) :
    ∀ (fuel : Nat) (visited : List VertexKey) (parent : VertexKey → Option VertexKey)
      (queue : List VertexKey) (lvl : VertexKey → Nat),
      BfsInv g start visited parent queue lvl →
      queue.length + (g.vertices.length + 1 - visited.length) ≤ fuel →
      (match bfsLoop g fuel visited parent queue with
       | (some t, parent1) =>
           g.is_frontier_vertex t = true ∧
           ∃ p, (∀ f, p.length ≤ f → reconstructAux parent1 start f t = some p) ∧
             isPathFrom g start p ∧ pathEnd start p = t ∧ start ∉ p ∧
             p.length ≤ g.vertices.length + 1 ∧
             (∀ q, isPathFrom g start q → pathEnd start q = t → p.length ≤ q.length)
       | (none, _) =>
           ∀ q, isPathFrom g start q → g.is_frontier_vertex (pathEnd start q) = false) := by
  intro fuel
  induction fuel with
  | zero =>
    intro visited parent queue lvl hinv hfuel
    have hvis : visited.length ≤ g.vertices.length :=
      nodup_subset_length visited g.vertices hinv.vis_nodup hinv.vis_sub
    omega
  | succ f ih =>
    intro visited parent queue lvl hinv hfuel
    rcases queue with _ | ⟨u, rest⟩
    · simp only [bfsLoop]
      intro q hq
      have hend : pathEnd start q ∈ visited := by
        apply closed_reach g start visited hinv.start_vis ?_ q hq
        intro v hv nb hnb
        exact hinv.closed v hv (List.not_mem_nil v) nb hnb
      exact hinv.nonfrontier _ hend
    · have hproc : ProcInv g start u (g.iter_existing_neighbors u) visited parent rest lvl := by
        have hu_vis : u ∈ visited := hinv.q_sub u (List.mem_cons_self u rest)
        have hu_notq : u ∉ rest := (List.nodup_cons.mp hinv.q_nodup).1
        refine
          { vis_nodup := hinv.vis_nodup
            vis_sub := hinv.vis_sub
            start_vis := hinv.start_vis
            q_sub := fun v hv => hinv.q_sub v (List.mem_cons_of_mem u hv)
            q_nodup := (List.nodup_cons.mp hinv.q_nodup).2
            nonfrontier := hinv.nonfrontier
            chains := hinv.chains
            minim := hinv.minim
            u_vis := hu_vis
            u_notq := hu_notq
            nbs_sub := fun x hx => hx
            closed_exc := ?_
            u_prefix := fun nb hnb hnot => absurd hnb hnot
            q_lo := ?_
            q_hi := ?_
            q_sorted := (List.pairwise_cons.mp hinv.sorted).2 }
        · intro v hv hvq hvu nb hnb
          refine hinv.closed v hv ?_ nb hnb
          intro hin
          rcases List.mem_cons.mp hin with h | h
          · exact hvu h
          · exact hvq h
        · intro x hx
          exact (List.pairwise_cons.mp hinv.sorted).1 x hx
        · intro x hx
          exact hinv.span u (List.mem_cons_self u rest) x (List.mem_cons_of_mem u hx)
      have hres := bfsProcess_spec g start u hwf (g.iter_existing_neighbors u) visited parent
        rest lvl hproc
      simp only [bfsLoop]
      rcases hX : bfsProcess g u (g.iter_existing_neighbors u) visited parent rest
        with ⟨t, parent1⟩ | ⟨vis1, parent1, q1⟩
      · rw [hX] at hres
        obtain ⟨hfr, p, hch, hlen, hmin⟩ := hres
        obtain ⟨hrec, hpath, hend, hstartp, hnd, hplen⟩ := hch
        exact ⟨hfr, p, hrec, hpath, hend, hstartp, by omega, hmin⟩
      · rw [hX] at hres
        obtain ⟨lvl1, hI, hcount, hmono⟩ := hres
        have hvis1 : visited.length ≤ vis1.length := by
          have hsub : ∀ v ∈ visited, v ∈ vis1 := hmono
          exact nodup_subset_length visited vis1 hinv.vis_nodup hsub
        have hvis1b : vis1.length ≤ g.vertices.length :=
          nodup_subset_length vis1 g.vertices hI.vis_nodup hI.vis_sub
        apply ih vis1 parent1 q1 lvl1 hI
        simp only [List.length_cons] at hfuel hcount
        omega

theorem reconstructAux_start (parent : VertexKey → Option VertexKey) (start : VertexKey)
    (fuel : Nat) : reconstructAux parent start fuel start = some [] := by
  cases fuel <;> simp [reconstructAux]

/-- Soundness and shortest-path optimality of `_bfs_to_nearest_frontier` on a
well-formed graph: a frontier start returns itself with an empty path; a
found target is a frontier vertex reached by a stored walk of minimal edge
count that excludes the start; a `none` result means no frontier vertex is
reachable over existing edges. -/
theorem bfs_spec (g : HoneyGraph) (start : VertexKey) (hwf : GraphWF g)
    (hstart : start ∈ g.vertices) :
    (g.is_frontier_vertex start = true → bfs_to_nearest_frontier start g = (some start, [])) ∧
    (∀ t p, bfs_to_nearest_frontier start g = (some t, p) →
      g.is_frontier_vertex t = true ∧ isPathFrom g start p ∧ pathEnd start p = t ∧
      start ∉ p ∧
      (∀ q, isPathFrom g start q → pathEnd start q = t → p.length ≤ q.length)) ∧
    ((bfs_to_nearest_frontier start g).1 = none →
      ∀ q, isPathFrom g start q → g.is_frontier_vertex (pathEnd start q) = false) := by
  by_cases hf : g.is_frontier_vertex start = true
  · have hbfs : bfs_to_nearest_frontier start g = (some start, []) := by
      unfold bfs_to_nearest_frontier
      rw [if_pos hf]
    refine ⟨fun _ => hbfs, ?_, ?_⟩
    · intro t p h
      rw [hbfs] at h
      simp only [Prod.mk.injEq, Option.some.injEq] at h
      obtain ⟨rfl, rfl⟩ := h
      refine ⟨hf, trivial, rfl, List.not_mem_nil start, ?_⟩
      intro q _ _
      simp
    · intro h
      rw [hbfs] at h
      simp at h
  · have hf2 : g.is_frontier_vertex start = false := by
      simpa using hf
    have hInit : BfsInv g start [start] (fun _ => none) [start] (fun _ => 0) :=
      { vis_nodup := List.nodup_singleton start
        vis_sub := by
          intro v hv
          rw [List.mem_singleton.mp hv]
          exact hstart
        start_vis := List.mem_singleton_self start
        q_sub := fun v hv => hv
        q_nodup := List.nodup_singleton start
        nonfrontier := by
          intro v hv
          rw [List.mem_singleton.mp hv]
          exact hf2
        chains := by
          intro v hv
          rw [List.mem_singleton.mp hv]
          refine ⟨[], ⟨fun fuel _ => reconstructAux_start _ _ _, trivial, rfl,
            List.not_mem_nil start, List.nodup_nil, rfl⟩, fun x hx => absurd hx
              (List.not_mem_nil x)⟩
        minim := fun v _ q _ _ => Nat.zero_le q.length
        closed := by
          intro v hv hvq
          exact absurd hv hvq
        sorted := List.pairwise_singleton _ start
        span := fun x _ y _ => Nat.le_succ 0
      }
    have hfuel : [start].length + (g.vertices.length + 1 - [start].length) ≤
        g.vertices.length + 2 := by
      simp
      omega
    have hres := bfsLoop_spec g start hwf (g.vertices.length + 2) [start] (fun _ => none)
      [start] (fun _ => 0) hInit hfuel
    rcases hX : bfsLoop g (g.vertices.length + 2) [start] (fun _ => none) [start]
      with ⟨o, parent1⟩
    rw [hX] at hres
    rcases o with _ | t
    · have hbfs : bfs_to_nearest_frontier start g = (none, []) := by
        unfold bfs_to_nearest_frontier
        rw [if_neg hf, hX]
      refine ⟨fun h => absurd h hf, ?_, fun _ => hres⟩
      intro t p h
      rw [hbfs] at h
      simp at h
    · obtain ⟨hfr, p, hrec, hpath, hend, hstartp, hplen, hmin⟩ := hres
      have hrecon : reconstructAux parent1 start (g.vertices.length + 2) t = some p :=
        hrec _ (by omega)
      have hbfs : bfs_to_nearest_frontier start g = (some t, p) := by
        unfold bfs_to_nearest_frontier
        rw [if_neg hf, hX]
        dsimp only
        rw [hrecon]
        rfl
      refine ⟨fun h => absurd h hf, ?_, ?_⟩
      · intro t2 p2 h
        rw [hbfs] at h
        simp only [Prod.mk.injEq, Option.some.injEq] at h
        obtain ⟨rfl, rfl⟩ := h
        exact ⟨hfr, hpath, hend, hstartp, hmin⟩
      · intro h
        rw [hbfs] at h
        simp at h

/-! ## Travel-plan validity and the per-step invariant (C7, C10) -/

/-- Edge existence is one-way: `ensure_edge_exists` never clears a flag. -/
theorem ensure_exists_mono (g : HoneyGraph) (a b : VertexKey) (k : EdgeKey)
    (h : (g.edge_state k).exists_ = true) :
    ((g.ensure_edge_exists a b).edge_state k).exists_ = true := by
  rw [ensure_edge_state]
  split_ifs <;> simp [h]

theorem growEffect_vertices (g : HoneyGraph) (c nv : VertexKey) :
    (growEffect g c nv).vertices = g.vertices := by
  unfold growEffect
  rw [bumpVisit_vertices, bumpTraffic_vertices, ensure_vertices]

theorem growEffect_adjacency (g : HoneyGraph) (c nv : VertexKey) :
    (growEffect g c nv).adjacency = g.adjacency := by
  unfold growEffect
  rw [bumpVisit_adjacency, bumpTraffic_adjacency, ensure_adjacency]

theorem growEffect_exists_mono (g : HoneyGraph) (c nv : VertexKey) (k : EdgeKey)
    (h : (g.edge_state k).exists_ = true) :
    ((growEffect g c nv).edge_state k).exists_ = true := by
  unfold growEffect
  rw [bumpVisit_edge_state, bumpTraffic_edge_state]
  split_ifs with hk
  · show ((g.ensure_edge_exists c nv).edge_state k).exists_ = true
    exact ensure_exists_mono g c nv k h
  · exact ensure_exists_mono g c nv k h

/-- Transporting walks to a graph with the same adjacency and at least the
same existing edges. -/
theorem isPathFrom_mono (g g2 : HoneyGraph)
    (hadj : g2.adjacency = g.adjacency)
    (hex : ∀ k, (g.edge_state k).exists_ = true → (g2.edge_state k).exists_ = true) :
    ∀ (p : List VertexKey) (u : VertexKey), isPathFrom g u p → isPathFrom g2 u p := by
  intro p
  induction p with
  | nil => intro u _; trivial
  | cons v rest ih =>
    intro u h
    obtain ⟨hm, hrest⟩ := h
    obtain ⟨hadj2, hexist⟩ := (mem_iter_existing g u v).mp hm
    refine ⟨(mem_iter_existing g2 u v).mpr ⟨?_, ?_⟩, ih v hrest⟩
    · rw [hadj]
      exact hadj2
    · unfold HoneyGraph.edgeExists at *
      exact hex _ hexist

theorem GraphWF_of_eq (g g2 : HoneyGraph) (hv : g2.vertices = g.vertices)
    (ha : g2.adjacency = g.adjacency) (hwf : GraphWF g) : GraphWF g2 := by
  unfold GraphWF at *
  rw [hv, ha]
  exact hwf

/-- The agent invariant the stepper maintains: known endpoints are graph
vertices, the stored travel path is a valid existing-edge walk from `curr`,
and GROW mode carries no leftover path. -/
def AgentInv (g : HoneyGraph) (a : Agent) : Prop :=
  (∀ pv, a.prev = some pv → pv ∈ g.vertices) ∧
  (∀ cv, a.curr = some cv → cv ∈ g.vertices ∧ isPathFrom g cv a.travel_path) ∧
  (a.mode = AgentMode.GROW → a.travel_path = [])

theorem RNG.choice_mem (r : RNG) (l : List VertexKey) (x : VertexKey) (r2 : RNG)
    (h : r.choice l = some (x, r2)) : x ∈ l := by
  unfold RNG.choice at h
  rcases l with _ | ⟨a, as⟩
  · exact absurd h (by simp)
  · have hlt : r.nats r.idx % (a :: as).length < (a :: as).length :=
      Nat.mod_lt _ (by simp)
    simp only [Option.some.injEq, Prod.mk.injEq] at h
    obtain ⟨h1, _⟩ := h
    rw [← h1, List.getD_eq_get _ _ hlt]
    exact List.get_mem _ _ _

/-- A successful random start-edge search returns a vertex of the graph and
one of its neighbors. -/
theorem choose_random_start_edge_spec (g : HoneyGraph) (ka kb : VertexKey) :
    ∀ (fuel : Nat) (rng rng2 : RNG),
      g.choose_random_start_edge rng fuel = some ((ka, kb), rng2) →
      kb ∈ g.vertices ∧ ka ∈ g.adjacency kb := by
  intro fuel
  induction fuel with
  | zero =>
    intro rng rng2 h
    exact absurd h (by simp [HoneyGraph.choose_random_start_edge])
  | succ f ih =>
    intro rng rng2 h
    unfold HoneyGraph.choose_random_start_edge at h
    rcases hc : rng.choice g.vertices with _ | ⟨vb, rng1⟩
    · rw [hc] at h
      exact absurd h (by simp)
    · rw [hc] at h
      dsimp only at h
      have hvb : vb ∈ g.vertices := RNG.choice_mem rng g.vertices vb rng1 hc
      rcases hadj : g.adjacency vb with _ | ⟨n, ns⟩
      · rw [hadj] at h
        dsimp only at h
        exact ih rng1 rng2 h
      · rw [hadj] at h
        dsimp only at h
        rcases hc2 : rng1.choice (n :: ns) with _ | ⟨va, rng3⟩
        · rw [hc2] at h
          exact absurd h (by simp)
        · rw [hc2] at h
          dsimp only at h
          simp only [Option.some.injEq, Prod.mk.injEq] at h
          obtain ⟨⟨h1, h2⟩, _⟩ := h
          have hva := RNG.choice_mem rng1 (n :: ns) va rng3 hc2
          rw [← h1, ← h2, hadj]
          exact ⟨hvb, hva⟩

theorem bumpTraffic_exists (g : HoneyGraph) (a b : VertexKey) (k : EdgeKey) :
    ((bumpTraffic g a b).edge_state k).exists_ = (g.edge_state k).exists_ := by
  rw [bumpTraffic_edge_state]
  split_ifs <;> rfl

theorem traverse_nil (g : HoneyGraph) (agent : Agent) (h : agent.travel_path = []) :
    traverse_one_travel_edge agent g = (agent, g) := by
  unfold traverse_one_travel_edge
  rcases hc : agent.curr with _ | c
  · rfl
  · rw [h]

theorem traverse_cons (g : HoneyGraph) (agent : Agent) (c nv : VertexKey)
    (rest : List VertexKey) (hcurr : agent.curr = some c)
    (hp : agent.travel_path = nv :: rest) :
    traverse_one_travel_edge agent g =
      ({ agent with prev := some c, curr := some nv, travel_path := rest },
        bumpVisit (bumpTraffic g c nv) nv) := by
  unfold traverse_one_travel_edge
  rw [hcurr, hp]

/-- The post-traverse state of one travel hop keeps the invariant: graph
topology untouched, edge existence untouched, endpoints in the vertex set,
and the remaining path valid from the new position. -/
theorem travel_arrival_check_spec (g : HoneyGraph) (agent : Agent) (c : VertexKey)
    (hwf : GraphWF g) (hcurr : agent.curr = some c) (hcv : c ∈ g.vertices)
    (hprev : ∀ pv, agent.prev = some pv → pv ∈ g.vertices)
    (hpath : isPathFrom g c agent.travel_path)
    (hgrow : agent.mode = AgentMode.GROW → agent.travel_path = []) :
    ∀ a2 g2, travel_arrival_check agent g = (a2, g2) →
      g2.vertices = g.vertices ∧ g2.adjacency = g.adjacency ∧
      (∀ k, (g.edge_state k).exists_ = true → (g2.edge_state k).exists_ = true) ∧
      (∀ pv, a2.prev = some pv → pv ∈ g.vertices) ∧
      (∃ cv, a2.curr = some cv ∧ cv ∈ g.vertices ∧ isPathFrom g2 cv a2.travel_path) ∧
      (a2.mode = AgentMode.GROW → a2.travel_path = []) ∧
      (a2.prev = agent.prev ∨ a2.prev = some c) := by
  intro a2 g2 hres
  rcases hp : agent.travel_path with _ | ⟨nv, rest⟩
  · unfold travel_arrival_check at hres
    rw [traverse_nil g agent hp] at hres
    dsimp only at hres
    split_ifs at hres with hcomp
    · obtain ⟨rfl, rfl⟩ := Prod.mk.injEq .. |>.mp hres.symm |>.imp Eq.symm Eq.symm
      refine ⟨rfl, rfl, fun k hk => hk, ?_, ⟨c, ?_, hcv, trivial⟩, fun _ => rfl, Or.inl rfl⟩
      · intro pv hpv
        exact hprev pv hpv
      · exact hcurr
    · obtain ⟨rfl, rfl⟩ := Prod.mk.injEq .. |>.mp hres.symm |>.imp Eq.symm Eq.symm
      refine ⟨rfl, rfl, fun k hk => hk, hprev, ⟨c, hcurr, hcv, ?_⟩, fun _ => hp, Or.inl rfl⟩
      rw [hp]
      trivial
  · have hnv_ex : nv ∈ g.iter_existing_neighbors c := by
      rw [hp] at hpath
      exact hpath.1
    have hnv_vtx : nv ∈ g.vertices :=
      hwf.2 c hcv nv ((mem_iter_existing g c nv).mp hnv_ex).1
    have hrest : isPathFrom g nv rest := by
      rw [hp] at hpath
      exact hpath.2
    have hg1_adj : (bumpVisit (bumpTraffic g c nv) nv).adjacency = g.adjacency := by
      rw [bumpVisit_adjacency, bumpTraffic_adjacency]
    have hg1_vtx : (bumpVisit (bumpTraffic g c nv) nv).vertices = g.vertices := by
      rw [bumpVisit_vertices, bumpTraffic_vertices]
    have hg1_ex : ∀ k, (g.edge_state k).exists_ = true →
        (((bumpVisit (bumpTraffic g c nv) nv)).edge_state k).exists_ = true := by
      intro k hk
      rw [bumpVisit_edge_state, bumpTraffic_exists]
      exact hk
    have hrest1 : isPathFrom (bumpVisit (bumpTraffic g c nv) nv) nv rest :=
      isPathFrom_mono g _ hg1_adj hg1_ex rest nv hrest
    unfold travel_arrival_check at hres
    rw [traverse_cons g agent c nv rest hcurr hp] at hres
    dsimp only at hres
    split_ifs at hres with hcomp
    · obtain ⟨rfl, rfl⟩ := Prod.mk.injEq .. |>.mp hres.symm |>.imp Eq.symm Eq.symm
      refine ⟨hg1_vtx, hg1_adj, hg1_ex, ?_, ⟨nv, rfl, hnv_vtx, trivial⟩, fun _ => rfl,
        Or.inr rfl⟩
      intro pv hpv
      simp only [clear_travel_plan, Option.some.injEq] at hpv
      rw [← hpv]
      exact hcv
    · obtain ⟨rfl, rfl⟩ := Prod.mk.injEq .. |>.mp hres.symm |>.imp Eq.symm Eq.symm
      refine ⟨hg1_vtx, hg1_adj, hg1_ex, ?_, ⟨nv, rfl, hnv_vtx, hrest1⟩, ?_, Or.inr rfl⟩
      · intro pv hpv
        simp only [Option.some.injEq] at hpv
        rw [← hpv]
        exact hcv
      · intro hmode
        have hempty := hgrow hmode
        rw [hp] at hempty
        exact absurd hempty (by simp)

/-- `_step_travel` (entered in TRAVEL mode, as `step` guarantees) keeps the
graph topology, only adds edge existence, and leaves the agent with a vertex
position and a valid remaining plan. -/
theorem step_travel_spec (g : HoneyGraph) (agent : Agent) (c : VertexKey)
    (hwf : GraphWF g) (hcurr : agent.curr = some c) (hcv : c ∈ g.vertices)
    (hprev : ∀ pv, agent.prev = some pv → pv ∈ g.vertices)
    (hpath : isPathFrom g c agent.travel_path)
    (hmode : agent.mode = AgentMode.TRAVEL) :
    ∀ a2 g2, step_travel c agent g = (a2, g2) →
      g2.vertices = g.vertices ∧ g2.adjacency = g.adjacency ∧
      (∀ k, (g.edge_state k).exists_ = true → (g2.edge_state k).exists_ = true) ∧
      (∀ pv, a2.prev = some pv → pv ∈ g.vertices) ∧
      (∃ cv, a2.curr = some cv ∧ cv ∈ g.vertices ∧ isPathFrom g2 cv a2.travel_path) ∧
      (a2.mode = AgentMode.GROW → a2.travel_path = []) ∧
      (a2.prev = agent.prev ∨ a2.prev = some c) := by
  intro a2 g2 hres
  unfold step_travel at hres
  set agent1 := if is_travel_target_invalid agent g then clear_travel_plan agent else agent
    with hagent1
  have h1curr : agent1.curr = some c := by
    rw [hagent1]
    split_ifs <;> simp [clear_travel_plan, hcurr]
  have h1prev : ∀ pv, agent1.prev = some pv → pv ∈ g.vertices := by
    rw [hagent1]
    split_ifs
    · intro pv hpv
      simp only [clear_travel_plan] at hpv
      exact hprev pv hpv
    · exact hprev
  have h1path : isPathFrom g c agent1.travel_path := by
    rw [hagent1]
    split_ifs
    · simp only [clear_travel_plan]
      trivial
    · exact hpath
  have h1mode : agent1.mode = AgentMode.TRAVEL := by
    rw [hagent1]
    split_ifs <;> simp [clear_travel_plan, hmode]
  have h1grow : agent1.mode = AgentMode.GROW → agent1.travel_path = [] := by
    rw [h1mode]
    intro h
    exact absurd h (by simp)
  by_cases hplan : agent1.travel_target = none ∨ agent1.travel_path = []
  · rw [if_pos hplan] at hres
    rcases hp : plan_travel_to_nearest_frontier c agent1 g with _ | agent2
    · rw [hp] at hres
      obtain ⟨rfl, rfl⟩ := Prod.mk.injEq .. |>.mp hres.symm |>.imp Eq.symm Eq.symm
      refine ⟨rfl, rfl, fun k hk => hk, h1prev, ⟨c, h1curr, hcv, h1path⟩, h1grow, Or.inl ?_⟩
      rw [hagent1]
      split_ifs <;> simp [clear_travel_plan]
    · rw [hp] at hres
      dsimp only at hres
      have hplan_eq : ∃ t path, bfs_to_nearest_frontier c g = (some t, path) ∧
          agent2 = { agent1 with
            travel_target := some t
            travel_target_version := g.version t
            travel_path := path } := by
        unfold plan_travel_to_nearest_frontier at hp
        rcases hb : bfs_to_nearest_frontier c g with ⟨o, pp⟩
        rw [hb] at hp
        rcases o with _ | t
        · simp at hp
        · dsimp only at hp
          refine ⟨t, pp, rfl, ?_⟩
          simp only [Option.some.injEq] at hp
          exact hp.symm
      obtain ⟨t, path, hb, rfl⟩ := hplan_eq
      have hvalid := (bfs_spec g c hwf hcv).2.1 t path hb
      have harr := travel_arrival_check_spec g
        { agent1 with
          travel_target := some t
          travel_target_version := g.version t
          travel_path := path } c hwf h1curr hcv h1prev hvalid.2.1 (by
            intro h
            simp only at h
            rw [h1mode] at h
            exact absurd h (by simp)) a2 g2 hres
      obtain ⟨k1, k2, k3, k4, k5, k6, k7⟩ := harr
      refine ⟨k1, k2, k3, k4, k5, k6, ?_⟩
      rcases k7 with k7 | k7
      · left
        rw [k7]
        show agent1.prev = agent.prev
        rw [hagent1]
        split_ifs <;> simp [clear_travel_plan]
      · exact Or.inr k7
  · rw [if_neg hplan] at hres
    have harr := travel_arrival_check_spec g agent1 c hwf h1curr hcv h1prev h1path h1grow
      a2 g2 hres
    obtain ⟨k1, k2, k3, k4, k5, k6, k7⟩ := harr
    refine ⟨k1, k2, k3, k4, k5, k6, ?_⟩
    rcases k7 with k7 | k7
    · left
      rw [k7]
      rw [hagent1]
      split_ifs <;> simp [clear_travel_plan]
    · exact Or.inr k7

theorem choose_next_mem (pc : ℚ) (curr : VertexKey) (cands : List VertexKey) (g : HoneyGraph)
    (rng : RNG) (nv : VertexKey)
    (h : (choose_next pc curr cands g rng).1 = some nv) : nv ∈ cands := by
  unfold choose_next at h
  rcases cands with _ | ⟨c0, _ | ⟨c1, rest⟩⟩
  · simp at h
  · simp only [Option.some.injEq] at h
    simp [h]
  · simp only [RNG.random] at h
    split_ifs at h <;> simp at h <;> rw [← h] <;> simp

theorem step_grow_success (pc : ℚ) (prev curr : VertexKey) (agent : Agent)
    (layout : Layout) (g : HoneyGraph) (rng : RNG)
    (h : (step_grow pc prev curr agent layout g rng).1 = true) :
    ∃ nv rng1, nv ∈ candList prev curr layout g ∧
      step_grow pc prev curr agent layout g rng =
        (true, { agent with prev := some curr, curr := some nv },
          growEffect g curr nv, rng1) := by
  unfold step_grow at *
  by_cases hemp : (candList prev curr layout g).isEmpty
  · simp [hemp] at h
  · simp only [hemp, if_false, Bool.false_eq_true] at *
    rcases hcn : choose_next pc curr (candList prev curr layout g) g rng with ⟨o, rng1⟩
    rcases o with _ | nv
    · rw [hcn] at h
      simp at h
    · exact ⟨nv, rng1, choose_next_mem pc curr _ g rng nv (by rw [hcn]), rfl⟩

theorem initialize_agent_spec (fuel : Nat) (agent : Agent) (g : HoneyGraph) (rng : RNG)
    (a2 : Agent) (g2 : HoneyGraph) (rng2 : RNG)
    (h : initialize_agent fuel agent g rng = some (a2, g2, rng2)) :
    ∃ ka kb rngx, g.choose_random_start_edge rng fuel = some ((ka, kb), rngx) ∧
      a2 = clear_travel_plan
        { agent with prev := some ka, curr := some kb, mode := AgentMode.GROW } ∧
      g2 = growEffect g ka kb ∧ rng2 = rngx := by
  unfold initialize_agent at h
  rcases hc : g.choose_random_start_edge rng fuel with _ | ⟨⟨ka, kb⟩, rngx⟩
  · rw [hc] at h
    simp at h
  · rw [hc] at h
    dsimp only at h
    simp only [Option.some.injEq, Prod.mk.injEq] at h
    exact ⟨ka, kb, rngx, rfl, h.1.symm, h.2.1.symm, h.2.2.symm⟩

/-- Master specification of one `step` call: the static topology is
untouched, edge existence only grows, the agent invariant is preserved, and
with a non-empty frontier the agent ends the call with both endpoints set to
graph vertices. -/
theorem step_spec (pc : ℚ) (fuel : Nat) (agent : Agent) (layout : Layout) (g : HoneyGraph)
    (rng : RNG) (a2 : Agent) (g2 : HoneyGraph) (rng2 : RNG)
    (hwf : GraphWF g) (hinv : AgentInv g agent)
    (hstep : step pc fuel agent layout g rng = some (a2, g2, rng2)) :
    g2.vertices = g.vertices ∧ g2.adjacency = g.adjacency ∧
    (∀ k, (g.edge_state k).exists_ = true → (g2.edge_state k).exists_ = true) ∧
    AgentInv g2 a2 ∧
    (g.frontier_is_empty = false →
      ∃ pv cv, a2.prev = some pv ∧ a2.curr = some cv ∧ pv ∈ g.vertices ∧ cv ∈ g.vertices) := by
  obtain ⟨hIprev, hIcurr, hIgrow⟩ := hinv
  unfold step at hstep
  by_cases hfe : g.frontier_is_empty = true
  · rw [if_pos hfe] at hstep
    simp only [Option.some.injEq, Prod.mk.injEq] at hstep
    obtain ⟨rfl, rfl, rfl⟩ := hstep
    exact ⟨rfl, rfl, fun k hk => hk, ⟨hIprev, hIcurr, hIgrow⟩,
      fun h => absurd hfe (by rw [h]; simp)⟩
  · rw [if_neg hfe] at hstep
    have hinit : ∀ (hstep2 : initialize_agent fuel agent g rng = some (a2, g2, rng2)),
        g2.vertices = g.vertices ∧ g2.adjacency = g.adjacency ∧
        (∀ k, (g.edge_state k).exists_ = true → (g2.edge_state k).exists_ = true) ∧
        AgentInv g2 a2 ∧
        (g.frontier_is_empty = false →
          ∃ pv cv, a2.prev = some pv ∧ a2.curr = some cv ∧
            pv ∈ g.vertices ∧ cv ∈ g.vertices) := by
      intro hstep2
      obtain ⟨ka, kb, rngx, hc, rfl, rfl, hrngeq⟩ := initialize_agent_spec fuel agent g rng
        a2 g2 rng2 hstep2
      obtain ⟨hkb, hka_adj⟩ := choose_random_start_edge_spec g ka kb fuel rng rngx hc
      have hka : ka ∈ g.vertices := hwf.2 kb hkb ka hka_adj
      refine ⟨growEffect_vertices g ka kb, growEffect_adjacency g ka kb,
        growEffect_exists_mono g ka kb, ⟨?_, ?_, ?_⟩, ?_⟩
      · intro pv hpv
        simp only [clear_travel_plan, Option.some.injEq] at hpv
        rw [growEffect_vertices, ← hpv]
        exact hka
      · intro cv hcv
        simp only [clear_travel_plan, Option.some.injEq] at hcv
        rw [growEffect_vertices, ← hcv]
        exact ⟨hkb, trivial⟩
      · intro _
        rfl
      · intro _
        exact ⟨ka, kb, rfl, rfl, hka, hkb⟩
    rcases hpv : agent.prev with _ | pv <;> rcases hcv : agent.curr with _ | cv
    · rw [hpv, hcv] at hstep
      exact hinit hstep
    · rw [hpv, hcv] at hstep
      exact hinit hstep
    · rw [hpv, hcv] at hstep
      exact hinit hstep
    · rw [hpv, hcv] at hstep
      dsimp only at hstep
      have hcv_vtx : cv ∈ g.vertices := (hIcurr cv hcv).1
      have hcv_path : isPathFrom g cv agent.travel_path := (hIcurr cv hcv).2
      rcases hmode : agent.mode with _ | _
      · -- GROW mode
        rw [hmode] at hstep
        dsimp only at hstep
        by_cases hr1 : (step_grow pc pv cv agent layout g rng).1 = true
        · obtain ⟨nv, rng1, hnv_mem, hsg⟩ := step_grow_success pc pv cv agent layout g rng hr1
          rw [hsg] at hstep
          dsimp only at hstep
          rw [if_pos rfl] at hstep
          simp only [Option.some.injEq, Prod.mk.injEq] at hstep
          obtain ⟨rfl, rfl, hrng2⟩ := hstep
          have hnv_adj : nv ∈ g.adjacency cv := (candList_mem pv cv layout g nv hnv_mem).1
          have hnv_vtx : nv ∈ g.vertices := hwf.2 cv hcv_vtx nv hnv_adj
          have hpath_nil : agent.travel_path = [] := hIgrow hmode
          refine ⟨growEffect_vertices g cv nv, growEffect_adjacency g cv nv,
            growEffect_exists_mono g cv nv, ⟨?_, ?_, ?_⟩, ?_⟩
          · intro pv2 hpv2
            simp only [Option.some.injEq] at hpv2
            rw [growEffect_vertices, ← hpv2]
            exact hcv_vtx
          · intro cv2 hcv2
            simp only [Option.some.injEq] at hcv2
            rw [growEffect_vertices, ← hcv2]
            refine ⟨hnv_vtx, ?_⟩
            simp only [hpath_nil]
            trivial
          · intro _
            simp only [hpath_nil]
          · intro _
            exact ⟨cv, nv, rfl, rfl, hcv_vtx, hnv_vtx⟩
        · have hr1f : (step_grow pc pv cv agent layout g rng).1 = false := by
            simpa using hr1
          have hsg := step_grow_blocked pc pv cv agent layout g rng hr1f
          rw [hsg] at hstep
          dsimp only at hstep
          rcases hst : step_travel cv (enter_travel_mode agent) g with ⟨a3, g3⟩
          have hspec := step_travel_spec g (enter_travel_mode agent) cv hwf
            (by simp [enter_travel_mode, clear_travel_plan, hcv])
            hcv_vtx
            (by
              intro pv2 hpv2
              simp only [enter_travel_mode, clear_travel_plan] at hpv2
              exact hIprev pv2 hpv2)
            (by simp only [enter_travel_mode, clear_travel_plan]; trivial)
            (by simp [enter_travel_mode, clear_travel_plan])
            a3 g3 hst
          rw [hst] at hstep
          simp only [Option.some.injEq, Prod.mk.injEq] at hstep
          obtain ⟨rfl, rfl, hrng2⟩ := hstep
          obtain ⟨h1, h2, h3, h4, ⟨cv3, hc3, hc3v, hc3p⟩, h6, h7⟩ := hspec
          refine ⟨h1, h2, h3, ⟨?_, ?_, h6⟩, ?_⟩
          · intro pv2 hpv2
            rw [h1]
            exact h4 pv2 hpv2
          · intro cv2 hcv2
            rw [hc3] at hcv2
            simp only [Option.some.injEq] at hcv2
            rw [h1, ← hcv2]
            exact ⟨hc3v, hcv2 ▸ hc3p⟩
          · intro _
            rcases h7 with h7 | h7
            · refine ⟨pv, cv3, ?_, hc3, hIprev pv hpv, hc3v⟩
              rw [h7]
              simpa [enter_travel_mode, clear_travel_plan] using hpv
            · exact ⟨cv, cv3, h7, hc3, hcv_vtx, hc3v⟩
      · -- TRAVEL mode
        rw [hmode] at hstep
        dsimp only at hstep
        rcases hst : step_travel cv agent g with ⟨a3, g3⟩
        have hspec := step_travel_spec g agent cv hwf hcv hcv_vtx hIprev hcv_path hmode
          a3 g3 hst
        rw [hst] at hstep
        simp only [Option.some.injEq, Prod.mk.injEq] at hstep
        obtain ⟨rfl, rfl, hrng2⟩ := hstep
        obtain ⟨h1, h2, h3, h4, ⟨cv3, hc3, hc3v, hc3p⟩, h6, h7⟩ := hspec
        refine ⟨h1, h2, h3, ⟨?_, ?_, h6⟩, ?_⟩
        · intro pv2 hpv2
          rw [h1]
          exact h4 pv2 hpv2
        · intro cv2 hcv2
          rw [hc3] at hcv2
          simp only [Option.some.injEq] at hcv2
          rw [h1, ← hcv2]
          exact ⟨hc3v, hcv2 ▸ hc3p⟩
        · intro _
          rcases h7 with h7 | h7
          · rw [hpv] at h7
            exact ⟨pv, cv3, h7, hc3, hIprev pv hpv, hc3v⟩
          · exact ⟨cv, cv3, h7, hc3, hcv_vtx, hc3v⟩

/-! ## C4: BFS travel planning -/

/-- C4: BFS planning from `curr` over the existing-edge subgraph: a frontier
start is its own target with an empty path (and that is exactly the stored
plan); a found target is a frontier vertex reached by a stored shortest walk
(by edge count) that excludes the start and ends with the target; when no
frontier vertex is reachable, planning fails, the graph is never mutated, and
the agent is returned unchanged when no soft-cancel fired (a stale-target
soft-cancel in the same call leaves only the cleared plan).  On the concrete
chain A–B–C–D of `chainGraph`, planning from A yields target D with path
[B, C, D]. -/
theorem C4_bfs_travel_planning :
    (∀ (g : HoneyGraph) (start : VertexKey), GraphWF g → start ∈ g.vertices →
      (g.is_frontier_vertex start = true →
        bfs_to_nearest_frontier start g = (some start, []) ∧
        ∀ agent : Agent, plan_travel_to_nearest_frontier start agent g =
          some { agent with
            travel_target := some start
            travel_target_version := g.version start
            travel_path := [] }) ∧
      (∀ t p, bfs_to_nearest_frontier start g = (some t, p) →
        g.is_frontier_vertex t = true ∧ isPathFrom g start p ∧ pathEnd start p = t ∧
        start ∉ p ∧
        (∀ q, isPathFrom g start q → pathEnd start q = t → p.length ≤ q.length)) ∧
      ((bfs_to_nearest_frontier start g).1 = none →
        (∀ q, isPathFrom g start q → g.is_frontier_vertex (pathEnd start q) = false) ∧
        (∀ agent : Agent, plan_travel_to_nearest_frontier start agent g = none) ∧
        (∀ agent : Agent, is_travel_target_invalid agent g = false →
          agent.travel_target = none ∨ agent.travel_path = [] →
          step_travel start agent g = (agent, g)) ∧
        (∀ agent : Agent, is_travel_target_invalid agent g = true →
          step_travel start agent g = (clear_travel_plan agent, g)))) ∧
    bfs_to_nearest_frontier chainA chainGraph = (some chainD, [chainB, chainC, chainD]) := by
  refine ⟨?_, by decide⟩
  intro g start hwf hstart
  have hspec := bfs_spec g start hwf hstart
  refine ⟨?_, hspec.2.1, ?_⟩
  · intro hf
    have hb := hspec.1 hf
    refine ⟨hb, ?_⟩
    intro agent
    unfold plan_travel_to_nearest_frontier
    rw [hb]
  · intro hnone
    have hplan : ∀ agent : Agent, plan_travel_to_nearest_frontier start agent g = none := by
      intro agent
      unfold plan_travel_to_nearest_frontier
      rcases hb : bfs_to_nearest_frontier start g with ⟨o, p⟩
      rcases o with _ | t
      · rfl
      · rw [hb] at hnone
        simp at hnone
    refine ⟨hspec.2.2 hnone, hplan, ?_, ?_⟩
    · intro agent hvalid hmissing
      simp only [step_travel, hvalid]
      simp only [Bool.false_eq_true, if_false]
      rw [if_pos hmissing, hplan agent]
    · intro agent hinvalid
      simp only [step_travel, hinvalid, if_true]
      have hnone2 : (clear_travel_plan agent).travel_target = none := rfl
      rw [if_pos (Or.inl hnone2), hplan (clear_travel_plan agent)]

/-- The literal no-mutation reading refuted: in `cexGraph` no frontier vertex
is reachable from A, yet the travel step on `cexAgent` (whose target version
is stale) returns a changed agent — the soft-cancel cleared its plan. -/
theorem C4_bfs_travel_planning_counterexample :
    (bfs_to_nearest_frontier chainA cexGraph).1 = none ∧
    (step_travel chainA cexAgent cexGraph).1 ≠ cexAgent := by decide

/-- C4 instantiated on the chain example: the crafted state is well-formed,
D is a frontier vertex, [B, C, D] is an existing-edge walk from A, and no
walk from A to D is shorter than 3 edges. -/
theorem C4_bfs_travel_planning_witness :
    GraphWF chainGraph ∧ chainA ∈ chainGraph.vertices ∧
    chainGraph.is_frontier_vertex chainD = true ∧
    isPathFrom chainGraph chainA [chainB, chainC, chainD] ∧
    (∀ q, isPathFrom chainGraph chainA q → pathEnd chainA q = chainD →
      (3 : Nat) ≤ q.length) := by
  have h := (C4_bfs_travel_planning.1 chainGraph chainA (by decide) (by decide)).2.1
    chainD [chainB, chainC, chainD] (by decide)
  exact ⟨by decide, by decide, h.1, h.2.1, h.2.2.2.2⟩

/-! ## C7: travel hops never need edge creation -/

/-- C7: edge existence is one-way (`ensure_edge_exists` never clears it and a
whole `step` only ever adds existing edges); a freshly planned path is a walk
over already-existing edges; `step` preserves the agent invariant, so the
stored path stays valid at every later tick (soft-cancels included, they only
clear the plan); and at a pop of the next vertex from a nonempty path the
edge (curr, next) already has `exists=true`, while the traversal — which
never calls `ensure_edge_exists` — leaves every `exists` flag exactly as it
was and still bumps the traversed edge's traffic and the new vertex's visit
count by one. -/
theorem C7_travel_needs_no_edge_creation :
    (∀ (g : HoneyGraph) (a b : VertexKey) (k : EdgeKey),
      (g.edge_state k).exists_ = true →
      ((g.ensure_edge_exists a b).edge_state k).exists_ = true) ∧
    (∀ (curr : VertexKey) (agent a2 : Agent) (g : HoneyGraph),
      GraphWF g → curr ∈ g.vertices →
      plan_travel_to_nearest_frontier curr agent g = some a2 →
      isPathFrom g curr a2.travel_path) ∧
    (∀ (pc : ℚ) (fuel : Nat) (agent : Agent) (layout : Layout) (g : HoneyGraph)
      (rng : RNG) (a2 : Agent) (g2 : HoneyGraph) (rng2 : RNG),
      GraphWF g → AgentInv g agent →
      step pc fuel agent layout g rng = some (a2, g2, rng2) →
      (∀ k, (g.edge_state k).exists_ = true → (g2.edge_state k).exists_ = true) ∧
      AgentInv g2 a2) ∧
    (∀ (g : HoneyGraph) (agent : Agent) (c nb : VertexKey) (rest : List VertexKey),
      AgentInv g agent → agent.curr = some c → agent.travel_path = nb :: rest →
      g.edgeExists c nb = true ∧
      traverse_one_travel_edge agent g =
        ({ agent with prev := some c, curr := some nb, travel_path := rest },
          bumpVisit (bumpTraffic g c nb) nb) ∧
      (∀ k, ((bumpVisit (bumpTraffic g c nb) nb).edge_state k).exists_ =
        (g.edge_state k).exists_) ∧
      (bumpVisit (bumpTraffic g c nb) nb).traffic c nb = g.traffic c nb + 1 ∧
      (bumpVisit (bumpTraffic g c nb) nb).visit_count nb = g.visit_count nb + 1) := by
  refine ⟨ensure_exists_mono, ?_, ?_, ?_⟩
  · intro curr agent a2 g hwf hcurr hplan
    unfold plan_travel_to_nearest_frontier at hplan
    rcases hb : bfs_to_nearest_frontier curr g with ⟨o, p⟩
    rw [hb] at hplan
    rcases o with _ | t
    · exact absurd hplan (by simp)
    · simp only [Option.some.injEq] at hplan
      have hpath := ((bfs_spec g curr hwf hcurr).2.1 t p hb).2.1
      rw [← hplan]
      exact hpath
  · intro pc fuel agent layout g rng a2 g2 rng2 hwf hinv hstep
    have hss := step_spec pc fuel agent layout g rng a2 g2 rng2 hwf hinv hstep
    exact ⟨hss.2.2.1, hss.2.2.2.1⟩
  · intro g agent c nb rest hinv hcurr hpathcons
    obtain ⟨hIprev, hIcurr, hIgrow⟩ := hinv
    have hp := (hIcurr c hcurr).2
    rw [hpathcons] at hp
    obtain ⟨hm, hrest⟩ := hp
    refine ⟨((mem_iter_existing g c nb).mp hm).2,
      traverse_cons g agent c nb rest hcurr hpathcons, ?_, ?_, ?_⟩
    · intro k
      rw [bumpVisit_edge_state]
      exact bumpTraffic_exists g c nb k
    · unfold HoneyGraph.traffic
      rw [bumpVisit_edge_state, bumpTraffic_edge_state, if_pos rfl]
    · unfold HoneyGraph.visit_count
      rw [bumpVisit_vertex_state, if_pos rfl, bumpTraffic_vertex_state]

/-- C7 instantiated in `chainGraph`: the already-existing edge A–B survives
`ensure_edge_exists(C, D)`, and `wAgentTravel` pops B over the
already-existing edge A–B, bumping its traffic by one. -/
theorem C7_travel_needs_no_edge_creation_witness :
    (chainGraph.edge_state (edge_key chainA chainB)).exists_ = true ∧
    ((chainGraph.ensure_edge_exists chainC chainD).edge_state
      (edge_key chainA chainB)).exists_ = true ∧
    chainGraph.edgeExists chainA chainB = true ∧
    traverse_one_travel_edge wAgentTravel chainGraph =
      ({ wAgentTravel with
          prev := some chainA
          curr := some chainB
          travel_path := [chainC, chainD] },
        bumpVisit (bumpTraffic chainGraph chainA chainB) chainB) ∧
    (bumpVisit (bumpTraffic chainGraph chainA chainB) chainB).traffic chainA chainB =
      chainGraph.traffic chainA chainB + 1 := by
  have hinv : AgentInv chainGraph wAgentTravel := by
    refine ⟨?_, ?_, ?_⟩
    · intro pv h
      have hpv : pv = chainA := by simpa [wAgentTravel] using h.symm
      rw [hpv]
      decide
    · intro cv h
      have hcv : cv = chainA := by simpa [wAgentTravel] using h.symm
      rw [hcv]
      exact ⟨by decide, by decide⟩
    · intro h
      exact absurd h (by decide)
  have h4 := C7_travel_needs_no_edge_creation.2.2.2 chainGraph wAgentTravel chainA chainB
    [chainC, chainD] hinv rfl rfl
  exact ⟨by decide, C7_travel_needs_no_edge_creation.1 chainGraph chainC chainD
    (edge_key chainA chainB) (by decide), h4.1, h4.2.1, h4.2.2.2.1⟩

/-! ## C8: STOPPED is terminal and reached exactly on an empty frontier -/

/-- C8: when the animator requests the next discrete step (IDLE, or DWELLING
past its deadline) while the frontier is empty, that same `update` call sets
the phase to STOPPED and changes nothing else (position, agent, graph and RNG
are all retained); a fresh animator starts in IDLE, so this happens on the
very first update of an already-empty frontier; and a STOPPED animator is
inert — every later update, and any sequence of updates, returns the
animator, agent, graph and RNG exactly as they were, never invoking the
stepper. -/
theorem C8_stopped_terminal_on_empty_frontier :
    (∀ (pc : ℚ) (fuel : Nat) (timing : SimulationTimingConfig) (now_ms : Int)
      (anim : Animator) (agent : Agent) (layout : Layout) (g : HoneyGraph) (rng : RNG),
      g.frontier_is_empty = true →
      (anim.phase = AnimPhase.IDLE ∨
        (anim.phase = AnimPhase.DWELLING ∧ ¬ now_ms < anim.dwell_until_ms)) →
      animUpdate pc fuel timing now_ms anim agent layout g rng =
        some ({ anim with phase := AnimPhase.STOPPED }, agent, g, rng)) ∧
    ({} : Animator).phase = AnimPhase.IDLE ∧
    (∀ (pc : ℚ) (fuel : Nat) (timing : SimulationTimingConfig) (now_ms : Int)
      (anim : Animator) (agent : Agent) (layout : Layout) (g : HoneyGraph) (rng : RNG),
      anim.phase = AnimPhase.STOPPED →
      animUpdate pc fuel timing now_ms anim agent layout g rng =
        some (anim, agent, g, rng)) ∧
    (∀ (pc : ℚ) (fuel : Nat) (timing : SimulationTimingConfig) (layout : Layout)
      (ts : List Int) (anim : Animator) (agent : Agent) (g : HoneyGraph) (rng : RNG),
      anim.phase = AnimPhase.STOPPED →
      animUpdates pc fuel timing layout ts anim agent g rng =
        some (anim, agent, g, rng)) := by
  refine ⟨?_, rfl, ?_, ?_⟩
  · intro pc fuel timing now_ms anim agent layout g rng hfe hreq
    have hstart : start_next_move pc fuel timing now_ms anim agent layout g rng =
        some ({ anim with phase := AnimPhase.STOPPED }, agent, g, rng) := by
      unfold start_next_move
      rw [hfe, if_pos rfl]
    rcases hreq with h | ⟨h, hd⟩
    · unfold animUpdate
      rw [h]
      exact hstart
    · unfold animUpdate
      rw [h]
      dsimp only
      rw [if_neg hd]
      exact hstart
  · intro pc fuel timing now_ms anim agent layout g rng h
    unfold animUpdate
    rw [h]
  · intro pc fuel timing layout ts
    induction ts with
    | nil =>
      intro anim agent g rng h
      rfl
    | cons t ts ih =>
      intro anim agent g rng h
      have h1 : animUpdate pc fuel timing t anim agent layout g rng =
          some (anim, agent, g, rng) := by
        unfold animUpdate
        rw [h]
      unfold animUpdates
      rw [h1]
      exact ih anim agent g rng h

/-- C8 instantiated: `wGraph0` starts with an empty frontier; the very first
update of a fresh animator stops; and a stopped animator survives a whole
timestamp sequence unchanged. -/
theorem C8_stopped_terminal_on_empty_frontier_witness :
    wGraph0.frontier_is_empty = true ∧
    animUpdate 1 1 wTiming 0 {} wAgentNew wLayout0 wGraph0 wRng =
      some ({ phase := AnimPhase.STOPPED }, wAgentNew, wGraph0, wRng) ∧
    animUpdates 1 1 wTiming wLayout0 [0, 1, 2] { phase := AnimPhase.STOPPED }
      wAgentNew wGraph0 wRng =
      some ({ phase := AnimPhase.STOPPED }, wAgentNew, wGraph0, wRng) :=
  ⟨by decide,
    C8_stopped_terminal_on_empty_frontier.1 1 1 wTiming 0 {} wAgentNew wLayout0 wGraph0
      wRng (by decide) (Or.inl rfl),
    C8_stopped_terminal_on_empty_frontier.2.2.2 1 1 wTiming wLayout0 [0, 1, 2]
      { phase := AnimPhase.STOPPED } wAgentNew wGraph0 wRng rfl⟩

/-! ## C9: run determinism -/

/-- C9: a run is a deterministic function of seed, topology, agent
registration order, timing and the update timestamps: two runs whose
configurations agree field by field (the RNG streams pointwise — same seed,
same streams) produce identical `(prev, curr)` traces for every agent. -/
theorem C9_run_determinism (i j : RunInputs)
    (h1 : i.prefer_new = j.prefer_new) (h2 : i.layout = j.layout)
    (h3 : i.timing = j.timing) (h4 : i.agents = j.agents)
    (h5 : ∀ n, i.rng.floats n = j.rng.floats n)
    (h6 : ∀ n, i.rng.nats n = j.rng.nats n)
    (h7 : i.rng.idx = j.rng.idx)
    (h8 : i.fuel = j.fuel) (h9 : i.timestamps = j.timestamps) :
    runTrace i = runTrace j := by
  have hrng : i.rng = j.rng := by
    rcases hri : i.rng with ⟨rf1, rn1, ri1⟩
    rcases hrj : j.rng with ⟨rf2, rn2, ri2⟩
    rw [hri, hrj] at h5 h6 h7
    dsimp only at h5 h6 h7
    rw [funext h5, funext h6, h7]
  have hij : i = j := by
    rcases i with ⟨p1, l1, t1, a1, r1, f1, ts1⟩
    rcases j with ⟨p2, l2, t2, a2, r2, f2, ts2⟩
    dsimp only at h1 h2 h3 h4 h8 h9 hrng
    rw [h1, h2, h3, h4, h8, h9, hrng]
  rw [hij]

/-- C9 instantiated: two separately written but identical run configurations
yield the same trace. -/
theorem C9_run_determinism_witness : runTrace wInputsA = runTrace wInputsB :=
  C9_run_determinism wInputsA wInputsB rfl rfl rfl rfl (fun _ => rfl) (fun _ => rfl)
    rfl rfl rfl

/-! ## C10: every step under a non-empty frontier leaves both endpoints set -/

/-- C10 (implicit): a successful `step` while the frontier is non-empty
leaves the agent with `prev` and `curr` both set to vertex keys of the graph
(an uninitialised agent goes through the random start-edge initialisation of
that very call), so the animator's post-step assertion cannot fail and its
`start_next_move` always returns a result whose vertex-position lookups are
at graph vertices. -/
theorem C10_step_leaves_endpoints_set (pc : ℚ) (fuel : Nat) (agent : Agent)
    (layout : Layout) (g : HoneyGraph) (rng : RNG) (a2 : Agent) (g2 : HoneyGraph)
    (rng2 : RNG) (hwf : GraphWF g) (hinv : AgentInv g agent)
    (hfe : g.frontier_is_empty = false)
    (hstep : step pc fuel agent layout g rng = some (a2, g2, rng2)) :
    (∃ pv cv, a2.prev = some pv ∧ a2.curr = some cv ∧
      pv ∈ g.vertices ∧ cv ∈ g.vertices) ∧
    ((agent.prev = none ∨ agent.curr = none) →
      step pc fuel agent layout g rng = initialize_agent fuel agent g rng) ∧
    (∀ (timing : SimulationTimingConfig) (now_ms : Int) (anim : Animator),
      (start_next_move pc fuel timing now_ms anim agent layout g rng).isSome = true) := by
  have hss := step_spec pc fuel agent layout g rng a2 g2 rng2 hwf hinv hstep
  obtain ⟨pv, cv, hp, hc, hpv, hcv⟩ := hss.2.2.2.2 hfe
  refine ⟨⟨pv, cv, hp, hc, hpv, hcv⟩, ?_, ?_⟩
  · intro h
    unfold step
    rw [hfe]
    simp only [Bool.false_eq_true, if_false]
    rcases h with h | h
    · rw [h]
    · rw [h]
      rcases hx : agent.prev with _ | p
      · rfl
      · rfl
  · intro timing now_ms anim
    simp only [start_next_move]
    rw [hfe]
    simp only [Bool.false_eq_true, if_false]
    rw [hstep]
    dsimp only
    rw [hp, hc]
    dsimp only
    split_ifs <;> rfl

/-- C10 instantiated: on `wGraph` (non-empty frontier) the uninitialised
`wAgentNew` is stepped onto the start edge (1,0) → (0,0), leaving both
endpoints set to graph vertices. -/
theorem C10_step_leaves_endpoints_set_witness :
    GraphWF wGraph ∧ wGraph.frontier_is_empty = false ∧
    (∃ pv cv, wAgentInit.prev = some pv ∧ wAgentInit.curr = some cv ∧
      pv ∈ wGraph.vertices ∧ cv ∈ wGraph.vertices) := by
  have hinv : AgentInv wGraph wAgentNew :=
    ⟨fun pv h => Option.noConfusion h, fun cv h => Option.noConfusion h, fun _ => rfl⟩
  exact ⟨by decide, by decide,
    (C10_step_leaves_endpoints_set 1 1 wAgentNew wLayout wGraph wRng wAgentInit
      (growEffect wGraph (1, 0) (0, 0)) wRng2 (by decide) hinv (by decide) rfl).1⟩

/-! ## Witnesses for the earlier claims -/

/-- C1 instantiated on the two-vertex layout: the constructed graph's
emptiness test agrees with the per-vertex open-incident counts. -/
theorem C1_frontier_consistency_witness :
    LayoutWF wLayout ∧
    ((HoneyGraph.init wLayout).frontier_is_empty = true ↔
      ∀ v ∈ (HoneyGraph.init wLayout).vertices,
        ¬ 0 < (HoneyGraph.init wLayout).open_incident v) :=
  ⟨⟨by decide, by decide⟩,
    (C1_frontier_consistency wLayout ⟨by decide, by decide⟩ [] _ rfl).2.2⟩

/-- C2 instantiated: the ensured edge exists, and a non-endpoint's version is
untouched. -/
theorem C2_ensure_edge_exists_idempotent_witness :
    (wGraph.ensure_edge_exists (0, 0) (1, 0)).edgeExists (0, 0) (1, 0) = true ∧
    ((5, 5) : VertexKey) ≠ ((0, 0) : VertexKey) ∧
    ((5, 5) : VertexKey) ≠ ((1, 0) : VertexKey) ∧
    (wGraph.ensure_edge_exists (0, 0) (1, 0)).version (5, 5) = wGraph.version (5, 5) :=
  ⟨(C2_ensure_edge_exists_idempotent wGraph (0, 0) (1, 0)).1, by decide, by decide,
    (C2_ensure_edge_exists_idempotent wGraph (0, 0) (1, 0)).2.2.2.2.1 (5, 5)
      (by decide) (by decide)⟩

/-- C3 instantiated: at (1,0), having come from (0,0), the candidate list is
empty and the growth move blocks without mutation. -/
theorem C3_growth_move_decision_witness :
    candList (0, 0) (1, 0) wLayout wGraph = [] ∧
    step_grow (prefer_new_probability (1 / 2)) (0, 0) (1, 0) wAgentGrow wLayout wGraph
      wRng = (false, wAgentGrow, wGraph, wRng) :=
  ⟨by decide,
    (C3_growth_move_decision (1 / 2) (0, 0) (1, 0) wAgentGrow wLayout wGraph wRng).2.1
      (by decide)⟩

/-- C5 instantiated at vertex (0,0) of the freshly constructed two-vertex
graph: its version rises by one at the ensure call exactly because its
open-incident count drops from positive to zero there. -/
theorem C5_version_bumped_exactly_once_witness :
    ((applyEnsures (HoneyGraph.init wLayout) []).ensure_edge_exists (0, 0) (1, 0)).version
        (0, 0) = (applyEnsures (HoneyGraph.init wLayout) []).version (0, 0) + 1 ↔
      (0 < (applyEnsures (HoneyGraph.init wLayout) []).open_incident (0, 0) ∧
        ((applyEnsures (HoneyGraph.init wLayout) []).ensure_edge_exists (0, 0)
          (1, 0)).open_incident (0, 0) = 0) :=
  (C5_version_bumped_exactly_once wLayout [] (0, 0) (1, 0) _ _ rfl rfl (0, 0)).2.2.2.2.2.1

/-- C6 instantiated: with `wAgentGrow` blocked at (1,0) on a non-empty
frontier, the very same `step` call performs the travel step on the
mode-switched agent. -/
theorem C6_blocked_growth_falls_through_witness :
    wGraph.frontier_is_empty = false ∧
    (step_grow (prefer_new_probability (1 / 2)) (0, 0) (1, 0) wAgentGrow wLayout wGraph
      wRng).1 = false ∧
    step (prefer_new_probability (1 / 2)) 1 wAgentGrow wLayout wGraph wRng =
      some ((step_travel (1, 0) (enter_travel_mode wAgentGrow) wGraph).1,
        (step_travel (1, 0) (enter_travel_mode wAgentGrow) wGraph).2, wRng) :=
  ⟨by decide, by decide,
    (C6_blocked_growth_falls_through (1 / 2) 1 wAgentGrow wLayout wGraph wRng (0, 0)
      (1, 0) (by decide) rfl rfl rfl (by decide)).2.2⟩
